import Mathlib

/-!
# AICodeChecker: the chunked-review pipeline of `pkg/checker/checker.go`

A shallow embedding of the content chunker (`splitCodeContent`), the result
merge (`mergeResults`), the rule matcher (`getApplicableRules`,
`filterRulesByContent`), the per-unit review (`checkFileWithRule`), the
enumeration, worker pool and collection loop of `CheckDirectory` and the report
sink (`AddResult`, `resultExists`), followed by the properties proved about
them.

Conventions of the embedding.

* A Go `string` is the list of its characters (`Str`); Go `len` is the number
  of bytes of the UTF-8 encoding (`len`).
* A Go `int` is an `Int`. The only arithmetic on it is
  `currentChunk.Len()+len(line)+1`, a sum of lengths of strings held in memory,
  which stays far below `2^63`, so no wrap-around is modelled.
* A `strings.Builder` is the string written so far.
* A function that returns `(value, error)` returns an `Except Str value`; the
  error carries the message.
* What the program asks of its environment (reading a file, the version-control
  queries, the files of the output directory, the review client) is an explicit
  argument. So is the case table `unicode.ToLower` of the Go library, which
  `strings.ToLower` applies to each character.
* The goroutines of the worker pool are a transition system (`poolStep`): a run
  is a sequence of steps of the sender and of the workers.
-/

set_option linter.dupNamespace false

namespace AICodeChecker

/-! ## Strings -/

/-- Go strings: the sequence of characters of the text. -/
abbrev Str := List Char

/-- Go `len(s)`: the number of bytes of the UTF-8 encoding of `s`. -/
def len (s : Str) : Nat :=
  (s.map Char.utf8Size).sum

/-- Go `strings.Split(s, sep)` for a separator of one character: the pieces of
`s` between the occurrences of `sep`, one more piece than there are
occurrences. -/
def stringsSplit (sep : Char) : Str → List Str
  | [] => [[]]
  | c :: cs =>
    if c = sep then [] :: stringsSplit sep cs
    else
      match stringsSplit sep cs with
      | [] => [[c]]
      | l :: ls => (c :: l) :: ls

/-- Go `strings.Join(parts, sep)` for a separator of one character. -/
def stringsJoin (sep : Char) : List Str → Str
  | [] => []
  | [p] => p
  | p :: q :: ps => p ++ sep :: stringsJoin sep (q :: ps)

/-- Go `strings.HasPrefix(s, p)`. -/
def stringsHasPrefix : Str → Str → Bool
  | _, [] => true
  | [], _ :: _ => false
  | c :: s, d :: p => c == d && stringsHasPrefix s p

/-- Go `strings.Contains(s, sub)`: `sub` starts at some position of `s`. -/
def stringsContains : Str → Str → Bool
  | [], sub => stringsHasPrefix [] sub
  | c :: s, sub => stringsHasPrefix (c :: s) sub || stringsContains s sub

/-- Go `strings.ToLower(s)`, which is `strings.Map(unicode.ToLower, s)`: every
character of `s` is replaced by its lower case. The argument `lower` is
`unicode.ToLower`, the case table of the Go library for every Unicode letter. -/
def stringsToLower (lower : Char → Char) (s : Str) : Str :=
  s.map lower

/-! ## Content chunker -/

/-- Local variables of the loop of `splitCodeContent`. -/
structure SplitState where
  chunks : List Str
  currentChunk : Str
  lineCount : Nat
deriving DecidableEq, Repr

/-- One iteration of `for _, line := range lines` in `splitCodeContent`. -/
def splitStep (maxTextLength : Int) (st : SplitState) (line : Str) : SplitState :=
  let st1 : SplitState :=
    if (len st.currentChunk : Int) + (len line : Int) + 1 > maxTextLength
        ∧ len st.currentChunk > 0 then
      { chunks := st.chunks ++ [st.currentChunk], currentChunk := [], lineCount := 0 }
    else st
  let buf : Str :=
    if len st1.currentChunk > 0 then st1.currentChunk ++ ['\n'] else st1.currentChunk
  { chunks := st1.chunks, currentChunk := buf ++ line, lineCount := st1.lineCount + 1 }

/-- The state of `splitCodeContent` after its loop over `lines`. -/
def splitLoop (maxTextLength : Int) (lines : List Str) (st : SplitState) : SplitState :=
  lines.foldl (splitStep maxTextLength) st

/-- The method `splitCodeContent` of `CodeChecker`, as a function of the field
`maxTextLength` it reads. -/
def splitCodeContent (maxTextLength : Int) (content : Str) : List Str :=
  if (len content : Int) ≤ maxTextLength then [content]
  else
    let st := splitLoop maxTextLength (stringsSplit '\n' content)
      { chunks := [], currentChunk := [], lineCount := 0 }
    if len st.currentChunk > 0 then st.chunks ++ [st.currentChunk] else st.chunks

/-! ## Result merge -/

/-- The constant `noIssuesFound`. -/
def noIssuesFound : Str := "经过仔细审查，未发现任何问题。".toList

/-- The section heading `fmt.Sprintf("## 第%d部分\n\n", n)`. -/
def partHeading (n : Nat) : Str :=
  "## 第".toList ++ (Nat.repr n).toList ++ "部分\n\n".toList

/-- The loop `for i, result := range results` of `mergeResults`: `total` is
`len(results)`, `i` the index of the first element of the remaining results and
`mergedResult` the builder. -/
def mergeLoop (total : Nat) : Nat → List Str → Str → Str
  | _, [], mergedResult => mergedResult
  | i, result :: rest, mergedResult =>
    let b1 := if total > 1 then mergedResult ++ partHeading (i + 1) else mergedResult
    mergeLoop total (i + 1) rest (b1 ++ result ++ "\n\n".toList)

/-- The method `mergeResults`. -/
def mergeResults (results : List Str) : Str :=
  if results.length = 0 then noIssuesFound
  else
    let mergedResult : Str :=
      if results.length > 1 then "# 文件检查结果汇总\n\n".toList else []
    mergeLoop results.length 0 results mergedResult

/-! ## Rule matcher -/

/-- The type `api.Rule`. -/
structure Rule where
  Name : Str
  Description : Str
  Extensions : List Str
  Keywords : List Str
  Enabled : Bool
deriving DecidableEq, Repr

/-- The loop of Go `filepath.Ext`, run over the characters of the path from the
last one backwards; `acc` is the part of the path already passed. -/
def filepathExtLoop : Str → Str → Str
  | [], _ => []
  | c :: rest, acc =>
    if c = '/' then []
    else if c = '.' then '.' :: acc
    else filepathExtLoop rest (c :: acc)

/-- Go `filepath.Ext(path)` with the separator `/`: the suffix of the last
element of `path` that starts at its last dot, empty when there is no dot. -/
def filepathExt (path : Str) : Str :=
  filepathExtLoop path.reverse []

/-- The loop `for _, ruleExt := range rule.Extensions` of `matchExtension`. -/
def matchExtensionLoop (lower : Char → Char) (ext : Str) : List Str → Bool
  | [] => false
  | ruleExt :: rest =>
    if stringsToLower lower ruleExt = ext then true
    else matchExtensionLoop lower ext rest

/-- The method `matchExtension`; `lower` is `unicode.ToLower`, which the two
calls of `strings.ToLower` apply. -/
def matchExtension (lower : Char → Char) (filePath : Str) (rule : Rule) : Bool :=
  let ext := stringsToLower lower (filepathExt filePath)
  matchExtensionLoop lower ext rule.Extensions

/-- The loop `for _, keyword := range rule.Keywords` of `matchKeywords`. -/
def matchKeywordsLoop (content : Str) : List Str → Bool
  | [] => false
  | keyword :: rest =>
    if stringsContains content keyword then true else matchKeywordsLoop content rest

/-- The method `matchKeywords`. -/
def matchKeywords (content : Str) (rule : Rule) : Bool :=
  if rule.Keywords.length = 0 then true
  else matchKeywordsLoop content rule.Keywords

/-- One iteration of the loop of `getApplicableRules`; the state is the pair of
named results `(rules, needContent)`. -/
def applicableStep (lower : Char → Char) (filePath : Str) (st : List Rule × Bool)
    (rule : Rule) : List Rule × Bool :=
  if !rule.Enabled then st
  else if !matchExtension lower filePath rule then st
  else
    let needContent := if rule.Keywords.length > 0 then true else st.2
    (st.1 ++ [rule], needContent)

/-- The method `getApplicableRules`, as a function of the field `rules`;
`lower` is `unicode.ToLower`. -/
def getApplicableRules (lower : Char → Char) (rules : List Rule) (filePath : Str) :
    List Rule × Bool :=
  rules.foldl (applicableStep lower filePath) ([], false)

/-- The method `filterRulesByContent`. -/
def filterRulesByContent (rules : List Rule) (content : Str) : List Rule :=
  rules.foldl
    (fun filtered rule => if matchKeywords content rule then filtered ++ [rule] else filtered)
    []

/-! ## Review client and the review of one unit -/

/-- A decoded JSON value, the content of a Go `interface{}` in a request or a
response. -/
inductive JSONValue where
  | null : JSONValue
  | bool : Bool → JSONValue
  | num : Int → JSONValue
  | str : Str → JSONValue
  | arr : List JSONValue → JSONValue
  | obj : List (Str × JSONValue) → JSONValue

/-- Go `map[string]interface{}`. -/
abbrev JSONMap := List (Str × JSONValue)

/-- The interface `api.AIClient`, without `SetLogFile`. `CallAPI` goes to the
network, so its answer may change from one call to the next: its first argument
is the number of calls the unit has made before this one. -/
structure AIClient where
  BuildPrompt : Str → List Rule → Str → Int → Except Str JSONMap
  ParseResponse : JSONMap → Except Str Str
  CallAPI : Nat → JSONMap → Str → Str → Except Str JSONMap

/-- A point in time (`time.Time`), as a number. -/
abbrev Time := Int

/-- The type `CodeChecker`. -/
structure CodeChecker where
  rules : List Rule
  apiURL : Str
  apiKey : Str
  apiModel : Str
  maxTextLength : Int
  maxTokens : Int
  svnLogLimit : Int
  svnPriorityAuthors : List Str
  svnFilterAfter : Option Time
  concurrency : Int
  apiClient : AIClient

/-- The function `NewCodeChecker`: it stores its arguments and never fails. -/
def NewCodeChecker (rules : List Rule) (apiURL apiKey apiModel : Str)
    (maxTextLength maxTokens svnLogLimit concurrency : Int)
    (svnPriorityAuthors : List Str) (svnFilterAfter : Option Time)
    (apiClient : AIClient) : Except Str CodeChecker :=
  .ok {
    rules := rules
    apiURL := apiURL
    apiKey := apiKey
    apiModel := apiModel
    maxTextLength := maxTextLength
    maxTokens := maxTokens
    svnLogLimit := svnLogLimit
    svnPriorityAuthors := svnPriorityAuthors
    svnFilterAfter := svnFilterAfter
    concurrency := concurrency
    apiClient := apiClient }

/-- The type `formatter.Result`. -/
structure Result where
  File : Str
  Result : Str
  AppliedRules : List Str
deriving DecidableEq, Repr

/-- What a unit does that the outside can see, in the order it does it: the
three calls to the review client for the chunk of a given index and the pause
`time.Sleep(time.Second)`. -/
inductive Event where
  | build : Nat → Event
  | call : Nat → Event
  | parse : Nat → Event
  | sleep : Event
deriving DecidableEq, Repr

/-- The loop `for i, chunk := range chunks` of `checkFileWithRule`: `total` is
`len(chunks)`, `i` the index of the first of the remaining chunks,
`chunkResults` the texts parsed so far and `log` the events so far. It returns
the events and either the error of the step that failed or all the texts. -/
def checkChunks (c : CodeChecker) (rule : Rule) (total : Nat) :
    Nat → List Str → List Str → List Event → List Event × Except Str (List Str)
  | _, [], chunkResults, log => (log, .ok chunkResults)
  | i, chunk :: rest, chunkResults, log =>
    match c.apiClient.BuildPrompt chunk [rule] c.apiModel c.maxTokens with
    | .error err => (log ++ [Event.build i], .error ("build prompt failed: ".toList ++ err))
    | .ok payload =>
      match c.apiClient.CallAPI i payload c.apiURL c.apiKey with
      | .error err =>
        (log ++ [Event.build i, Event.call i], .error ("call API failed: ".toList ++ err))
      | .ok responseData =>
        match c.apiClient.ParseResponse responseData with
        | .error err =>
          (log ++ [Event.build i, Event.call i, Event.parse i],
            .error ("parse response failed: ".toList ++ err))
        | .ok result =>
          let log1 := log ++ [Event.build i, Event.call i, Event.parse i]
          let log2 := if (i : Int) < (total : Int) - 1 then log1 ++ [Event.sleep] else log1
          checkChunks c rule total (i + 1) rest (chunkResults ++ [result]) log2

/-- The method `checkFileWithRule`, with the events of the run. `readFile` is
`os.ReadFile`. -/
def checkFileWithRule (c : CodeChecker) (readFile : Str → Except Str Str)
    (filePath : Str) (rule : Rule) : List Event × Except Str (List Result) :=
  match readFile filePath with
  | .error err => ([], .error ("read file failed: ".toList ++ err))
  | .ok content =>
    let chunks := splitCodeContent c.maxTextLength content
    match checkChunks c rule chunks.length 0 chunks [] [] with
    | (log, .error err) => (log, .error err)
    | (log, .ok chunkResults) =>
      let mergedResult := mergeResults chunkResults
      (log, .ok [{ File := filePath, Result := mergedResult, AppliedRules := [rule.Name] }])

/-! ## Paths and file-name patterns (Go `path/filepath`, separator `/`) -/

/-- One step of Go `filepath.Clean` over the elements of a path: an empty
element and `.` are dropped, `..` removes the element before it (at the root it
is dropped, at the start of a relative path it is kept). -/
def cleanStep (rooted : Bool) (stack : List Str) (elem : Str) : List Str :=
  if elem = [] ∨ elem = ['.'] then stack
  else if elem = ['.', '.'] then
    match stack.getLast? with
    | none => if rooted then stack else stack ++ [elem]
    | some top => if top = ['.', '.'] then stack ++ [elem] else stack.dropLast
  else stack ++ [elem]

/-- Go `filepath.Clean`. -/
def filepathClean (path : Str) : Str :=
  let rooted := path.head? = some '/'
  let stack := (stringsSplit '/' path).foldl (cleanStep rooted) []
  let out := (if rooted then ['/'] else []) ++ stringsJoin '/' stack
  if out = [] then ['.'] else out

/-- Go `filepath.Join` of two elements: empty elements are ignored and the
result is cleaned; the result is empty when both are empty. -/
def filepathJoin (a b : Str) : Str :=
  if a = [] ∧ b = [] then []
  else if a = [] then filepathClean b
  else if b = [] then filepathClean a
  else filepathClean (a ++ '/' :: b)

/-- A string without its trailing `/` characters. -/
def dropTrailingSlashes (path : Str) : Str :=
  (path.reverse.dropWhile (fun c => c == '/')).reverse

/-- Go `filepath.Base`: the last element of the path, `.` for the empty path
and `/` for a path of slashes only. -/
def filepathBase (path : Str) : Str :=
  if path = [] then ['.']
  else
    match (stringsSplit '/' (dropTrailingSlashes path)).getLast? with
    | none => ['/']
    | some b => if b = [] then ['/'] else b

/-- A term of a `filepath.Match` pattern. -/
inductive GlobTerm where
  | star : GlobTerm
  | any : GlobTerm
  | lit : Char → GlobTerm
  | cls : Bool → List (Char × Char) → GlobTerm
deriving DecidableEq, Repr

/-- Where the reader of a pattern stands: between terms, after a backslash, or
inside a character class (after `[`, at the start of a range, after a backslash
in a range, after the low end of a range, after the `-` of a range). -/
inductive GlobMode where
  | top : GlobMode
  | topEsc : GlobMode
  | clsOpen : GlobMode
  | clsLo : Bool → List (Char × Char) → GlobMode
  | clsLoEsc : Bool → List (Char × Char) → GlobMode
  | clsAfterLo : Bool → List (Char × Char) → Char → GlobMode
  | clsHi : Bool → List (Char × Char) → Char → GlobMode
  | clsHiEsc : Bool → List (Char × Char) → Char → GlobMode

/-- The terms of a `filepath.Match` pattern, or `none` for a malformed pattern
(`ErrBadPattern`): a backslash with nothing after it, or a character class that
is empty, not closed, or has a range starting with `-` or `]`. -/
def parseGlob : GlobMode → Str → List GlobTerm → Option (List GlobTerm)
  | .top, [], acc => some acc
  | .top, c :: rest, acc =>
    if c = '*' then parseGlob .top rest (acc ++ [.star])
    else if c = '?' then parseGlob .top rest (acc ++ [.any])
    else if c = '[' then parseGlob .clsOpen rest acc
    else if c = '\\' then parseGlob .topEsc rest acc
    else parseGlob .top rest (acc ++ [.lit c])
  | .topEsc, [], _ => none
  | .topEsc, c :: rest, acc => parseGlob .top rest (acc ++ [.lit c])
  | .clsOpen, [], _ => none
  | .clsOpen, c :: rest, acc =>
    if c = '^' then parseGlob (.clsLo true []) rest acc
    else if c = ']' ∨ c = '-' then none
    else if c = '\\' then parseGlob (.clsLoEsc false []) rest acc
    else parseGlob (.clsAfterLo false [] c) rest acc
  | .clsLo _ _, [], _ => none
  | .clsLo neg ranges, c :: rest, acc =>
    if c = ']' then
      if ranges = [] then none else parseGlob .top rest (acc ++ [.cls neg ranges])
    else if c = '-' then none
    else if c = '\\' then parseGlob (.clsLoEsc neg ranges) rest acc
    else parseGlob (.clsAfterLo neg ranges c) rest acc
  | .clsLoEsc _ _, [], _ => none
  | .clsLoEsc neg ranges, c :: rest, acc => parseGlob (.clsAfterLo neg ranges c) rest acc
  | .clsAfterLo _ _ _, [], _ => none
  | .clsAfterLo neg ranges lo, c :: rest, acc =>
    if c = '-' then parseGlob (.clsHi neg ranges lo) rest acc
    else if c = ']' then parseGlob .top rest (acc ++ [.cls neg (ranges ++ [(lo, lo)])])
    else if c = '\\' then parseGlob (.clsLoEsc neg (ranges ++ [(lo, lo)])) rest acc
    else parseGlob (.clsAfterLo neg (ranges ++ [(lo, lo)]) c) rest acc
  | .clsHi _ _ _, [], _ => none
  | .clsHi neg ranges lo, c :: rest, acc =>
    if c = '-' ∨ c = ']' then none
    else if c = '\\' then parseGlob (.clsHiEsc neg ranges lo) rest acc
    else parseGlob (.clsLo neg (ranges ++ [(lo, c)])) rest acc
  | .clsHiEsc _ _ _, [], _ => none
  | .clsHiEsc neg ranges lo, c :: rest, acc =>
    parseGlob (.clsLo neg (ranges ++ [(lo, c)])) rest acc

/-- A place in the bytes of a name, in the way `filepath.Match` reads it: the
number of bytes still ahead of a character whose first bytes were passed, and
the characters after it. A name starts at `(0, name)`. -/
abbrev Place := Nat × Str

/-- The test `len(name) == 0` at a place. -/
def placeAtEnd (p : Place) : Bool :=
  p.1 == 0 && p.2.isEmpty

/-- The test `lo <= r && r <= hi` of a character class, over its ranges. -/
def inRanges (ranges : List (Char × Char)) (r : Char) : Bool :=
  ranges.any (fun lh => decide (lh.1 ≤ r) && decide (r ≤ lh.2))

/-- One term of a chunk in `matchChunk`, read at a place: the place after it,
or `none` when it fails. A literal is compared byte by byte, so that it matches
at the start of an equal character only. `?` and a class decode one character
with `utf8.DecodeRuneInString`: inside a character that gives `U+FFFD` and
passes one byte. -/
def matchTerm : GlobTerm → Place → Option Place
  | .star, _ => none
  | .any, (0, []) => none
  | .any, (0, c :: s) => if c = '/' then none else some (0, s)
  | .any, (k + 1, s) => some (k, s)
  | .lit _, (0, []) => none
  | .lit d, (0, c :: s) => if c = d then some (0, s) else none
  | .lit _, (_ + 1, _) => none
  | .cls _ _, (0, []) => none
  | .cls neg ranges, (0, c :: s) => if inRanges ranges c != neg then some (0, s) else none
  | .cls neg ranges, (k + 1, s) =>
    if inRanges ranges (Char.ofNat 0xFFFD) != neg then some (k, s) else none

/-- The function `matchChunk` on the terms of a chunk: the place after the
chunk, or `none` when a term fails. -/
def matchChunk : List GlobTerm → Place → Option Place
  | [], p => some p
  | t :: ts, p =>
    match matchTerm t p with
    | none => none
    | some q => matchChunk ts q

/-- The chunks that the repeated calls of `scanChunk` cut a pattern into: each
is the terms up to the next `*`, with whether stars stood before it. -/
def scanChunks : List GlobTerm → List (Bool × List GlobTerm)
  | [] => []
  | .star :: ts =>
    match scanChunks ts with
    | [] => [(true, [])]
    | (_, chunk) :: rest => (true, chunk) :: rest
  | t :: ts =>
    match scanChunks ts with
    | [] => [(false, [t])]
    | (false, chunk) :: rest => (false, t :: chunk) :: rest
    | (true, chunk) :: rest => (false, [t]) :: (true, chunk) :: rest

/-- The places `name[i+1:]` of the loop
`for i := 0; i < len(name) && name[i] != Separator; i++`, from the start of a
character on, in the order of the loop: one per byte, up to the first `/`. -/
def starPlacesFrom : Str → List Place
  | [] => []
  | c :: s =>
    if c = '/' then []
    else (List.range c.utf8Size).reverse.map (fun k => (k, s)) ++ starPlacesFrom s

/-- The places `name[i+1:]` of that loop from any place. -/
def starPlaces (p : Place) : List Place :=
  (List.range p.1).reverse.map (fun k => (k, p.2)) ++ starPlacesFrom p.2

/-- The loop `Pattern:` of `filepath.Match` over the chunks of the pattern. A
trailing `*` matches the rest of a name without `/`. Another chunk is tried at
the current place, and after stars at the places of `starPlaces` in order; the
first place where it matches is taken, the last chunk having to end the name,
and the loop goes on from there with the next chunk. -/
def matchChunks : List (Bool × List GlobTerm) → Place → Bool
  | [], p => placeAtEnd p
  | (star, chunk) :: rest, p =>
    if star && chunk.isEmpty then !p.2.contains '/'
    else
      let taken : Place → Bool := fun t => placeAtEnd t || !rest.isEmpty
      match (matchChunk chunk p).filter taken with
      | some t => matchChunks rest t
      | none =>
        if star then
          match (starPlaces p).findSome? (fun q => (matchChunk chunk q).filter taken) with
          | some t => matchChunks rest t
          | none => false
        else false

/-- Go `filepath.Match(pattern, name)`; `none` is `ErrBadPattern`. -/
def filepathMatch (pattern name : Str) : Option Bool :=
  match parseGlob .top pattern [] with
  | none => none
  | some ts => some (matchChunks (scanChunks ts) (0, name))

/-- Whether a path matches a pattern element by element: both have the same
number of elements and each element of the path matches that of the pattern. -/
def matchElems : List Str → List Str → Bool
  | [], [] => true
  | p :: ps, n :: ns => filepathMatch p n == some true && matchElems ps ns
  | _, _ => false

/-- Go `filepath.Glob(pattern)` over the paths that exist (`paths`): the
existing paths that match the pattern, or `none` (`ErrBadPattern`) for a
malformed pattern. -/
def filepathGlob (paths : List Str) (pattern : Str) : Option (List Str) :=
  match parseGlob .top pattern [] with
  | none => none
  | some _ =>
    some (paths.filter (fun p => matchElems (stringsSplit '/' pattern) (stringsSplit '/' p)))

/-! ## Environment -/

/-- The type `checkTask` of `CheckDirectory`. -/
structure checkTask where
  filePath : Str
  rule : Rule
deriving DecidableEq, Repr

/-- What the program gets from outside itself.

* `readFile` is `os.ReadFile`; files are not written during a run.
* `walk` gives the paths that `filepath.Walk` passes to the callback of
  `CheckDirectory` with `info.IsDir()` false, or the error of the walk.
* `HasCommitsAfter` and `GetFileMostActiveAuthor` are the two functions of
  `pkg/svn` that run the `svn` command.
* `mkdirAll`, `create` and `write` give the error, if any, of `os.MkdirAll`,
  `os.Create` and `WriteString` on a path.
* `arrival` is the order in which the workers of the pool finish the tasks they
  were given: the order in which the outcomes reach the result channel.
* `unicodeToLower` is `unicode.ToLower`, the lower case of a character in the
  case table of the Go library. -/
structure Env where
  readFile : Str → Except Str Str
  walk : Str → Except Str (List Str)
  HasCommitsAfter : Str → Time → Except Str Bool
  GetFileMostActiveAuthor : Str → Int → List Str → Except Str Str
  mkdirAll : Str → Option Str
  create : Str → Option Str
  write : Str → Option Str
  arrival : List checkTask → List checkTask
  unicodeToLower : Char → Char

/-- The function `svn.HasCommitsAfterSafe`: a failed check counts as `true`. -/
def HasCommitsAfterSafe (env : Env) (filePath : Str) (afterTime : Time) : Bool :=
  match env.HasCommitsAfter filePath afterTime with
  | .error _ => true
  | .ok hasCommits => hasCommits

/-- The function `svn.GetFileAuthorSafe`: a failed lookup gives the empty
string. -/
def GetFileAuthorSafe (env : Env) (filePath : Str) (limit : Int)
    (priorityAuthors : List Str) : Str :=
  match env.GetFileMostActiveAuthor filePath limit priorityAuthors with
  | .error _ => []
  | .ok author => author

/-! ## Report sink -/

/-- The replacement ``regexp.MustCompile(`[<>:"/\\|?*]`).ReplaceAllString(s, "_")``:
each of the nine characters becomes `_`. -/
def replaceSpecial (s : Str) : Str :=
  s.map (fun c => if c ∈ ['<', '>', ':', '"', '/', '\\', '|', '?', '*'] then '_' else c)

/-- The type `MarkdownFormatter`; the map `ruleDirs` is a list of pairs. -/
structure MarkdownFormatter where
  outputDir : Str
  ruleDirs : List (Str × Str)
  svnLogLimit : Int
  svnPriorityAuthors : List Str
deriving DecidableEq, Repr

/-- The function `NewMarkdownFormatter`. -/
def NewMarkdownFormatter (outputDir : Str) (svnLogLimit : Int)
    (svnPriorityAuthors : List Str) : MarkdownFormatter :=
  { outputDir := outputDir, ruleDirs := [], svnLogLimit := svnLogLimit,
    svnPriorityAuthors := svnPriorityAuthors }

/-- The method `generateSafeFileName`. -/
def generateSafeFileName (fileName : Str) : Str :=
  replaceSpecial fileName

/-- The method `generateFileNameWithAuthor`. -/
def generateFileNameWithAuthor (env : Env) (f : MarkdownFormatter)
    (filePath fileName : Str) : Str :=
  let safeFileName := generateSafeFileName fileName
  let author := GetFileAuthorSafe env filePath f.svnLogLimit f.svnPriorityAuthors
  if author ≠ [] then
    let safeAuthor := replaceSpecial author
    '[' :: safeAuthor ++ ']' :: safeFileName
  else safeFileName

/-- A path and the directories above it, which `os.MkdirAll` creates. -/
def pathAncestors (path : Str) : List Str :=
  (((stringsSplit '/' path).inits.tail).map (stringsJoin '/')).filter (fun q => q ≠ [])

/-- The paths that exist once `path` has been created. -/
def addPath (paths : List Str) (path : Str) : List Str :=
  if path ∈ paths then paths else paths ++ [path]

/-- The formatter and the paths (files and directories) that exist. The
content of a report file is not part of the state. -/
structure SinkState where
  f : MarkdownFormatter
  paths : List Str
deriving DecidableEq, Repr

/-- The loop `for _, ruleName := range result.AppliedRules` of `AddResult`. A
file that `os.Create` has created exists even when writing to it fails. -/
def addResultLoop (env : Env) (result : Result) : List Str → SinkState →
    SinkState × Except Str Unit
  | [], st => (st, .ok ())
  | ruleName :: rest, st =>
    let ruleDirname := replaceSpecial ruleName
    let ruleDir := filepathJoin st.f.outputDir ruleDirname
    match env.mkdirAll ruleDir with
    | some err => (st, .error ("create rule directory failed: ".toList ++ err))
    | none =>
      let f1 : MarkdownFormatter :=
        { st.f with
          ruleDirs := st.f.ruleDirs.filter (fun kv => kv.1 ≠ ruleName) ++ [(ruleName, ruleDir)] }
      let st1 : SinkState := { f := f1, paths := (pathAncestors ruleDir).foldl addPath st.paths }
      let fileName := filepathBase result.File
      let finalFileName := generateFileNameWithAuthor env f1 result.File fileName
      let resultFile := filepathJoin ruleDir (finalFileName ++ ".md".toList)
      match env.create resultFile with
      | some err => (st1, .error ("create result file failed: ".toList ++ err))
      | none =>
        let st2 : SinkState := { st1 with paths := addPath st1.paths resultFile }
        match env.write resultFile with
        | some err => (st2, .error ("write result file failed: ".toList ++ err))
        | none => addResultLoop env result rest st2

/-- The method `AddResult`. -/
def AddResult (env : Env) (st : SinkState) (result : Result) :
    SinkState × Except Str Unit :=
  if result.AppliedRules.length = 0 then (st, .ok ())
  else if result.Result = "没有匹配的规则".toList ∨ result.Result = "未发现任何问题。".toList then
    (st, .ok ())
  else addResultLoop env result result.AppliedRules st

/-- The method `resultExists`, over the paths that exist. -/
def resultExists (paths : List Str) (filePath ruleName outputDir : Str) : Bool :=
  let ruleDirname := replaceSpecial ruleName
  let ruleDir := filepathJoin outputDir ruleDirname
  let fileName := filepathBase filePath
  let safeFileName := replaceSpecial fileName
  let pattern := filepathJoin ruleDir ('*' :: safeFileName ++ ".md".toList)
  match filepathGlob paths pattern with
  | none => false
  | some found => found.length > 0

/-! ## Directory check -/

/-- The type `checkResult` of `CheckDirectory`, without the duration; `err` is
`none` for a nil error. -/
structure checkResult where
  task : checkTask
  result : Result
  err : Option Str
deriving DecidableEq, Repr

/-- Local variables of the enumeration loop of `CheckDirectory`. `svnQueries`
is not a variable of the source: it records the path of each call of
`svn.HasCommitsAfterSafe`, in order. -/
structure EnumState where
  tasks : List checkTask
  total : Nat
  skipped : Nat
  svnQueries : List Str
deriving DecidableEq, Repr

/-- One iteration of `for _, rule := range applicableRules` in `CheckDirectory`. -/
def scheduleStep (paths : List Str) (outputDir filePath : Str) (st : EnumState)
    (rule : Rule) : EnumState :=
  if resultExists paths filePath rule.Name outputDir then
    { st with skipped := st.skipped + 1, total := st.total + 1 }
  else
    { st with tasks := st.tasks ++ [{ filePath := filePath, rule := rule }],
              total := st.total + 1 }

/-- The end of the body of the loop over the files, from the time filter on. -/
def scheduleFile (c : CodeChecker) (env : Env) (paths : List Str) (outputDir : Str)
    (enabledRules : Nat) (st : EnumState) (filePath : Str) (applicableRules : List Rule) :
    EnumState :=
  match c.svnFilterAfter with
  | some afterTime =>
    let st1 := { st with svnQueries := st.svnQueries ++ [filePath] }
    if !HasCommitsAfterSafe env filePath afterTime then
      { st1 with total := st1.total + enabledRules }
    else applicableRules.foldl (scheduleStep paths outputDir filePath) st1
  | none => applicableRules.foldl (scheduleStep paths outputDir filePath) st

/-- The body of `for _, filePath := range files` in `CheckDirectory`; an error
is the `return` on a failed read. -/
def enumFile (c : CodeChecker) (env : Env) (paths : List Str) (outputDir : Str)
    (enabledRules : Nat) (st : EnumState) (filePath : Str) : Except Str EnumState :=
  let (applicableRules, needContent) :=
    getApplicableRules env.unicodeToLower c.rules filePath
  if applicableRules.length = 0 then .ok { st with total := st.total + enabledRules }
  else if needContent then
    match env.readFile filePath with
    | .error err => .error ("read file failed: ".toList ++ err)
    | .ok content =>
      let applicableRules := filterRulesByContent applicableRules content
      if applicableRules.length = 0 then .ok { st with total := st.total + enabledRules }
      else .ok (scheduleFile c env paths outputDir enabledRules st filePath applicableRules)
  else .ok (scheduleFile c env paths outputDir enabledRules st filePath applicableRules)

/-- The loop `for _, filePath := range files` of `CheckDirectory`. -/
def enumFiles (c : CodeChecker) (env : Env) (paths : List Str) (outputDir : Str)
    (enabledRules : Nat) : List Str → EnumState → Except Str EnumState
  | [], st => .ok st
  | filePath :: rest, st =>
    match enumFile c env paths outputDir enabledRules st filePath with
    | .error err => .error err
    | .ok st1 => enumFiles c env paths outputDir enabledRules rest st1

/-- The enumeration phase of `CheckDirectory` over the files found: the count
of the enabled rules, then the loop over the files. -/
def enumerate (c : CodeChecker) (env : Env) (paths : List Str) (outputDir : Str)
    (files : List Str) : Except Str EnumState :=
  let enabledRules := (c.rules.filter (fun rule => rule.Enabled)).length
  enumFiles c env paths outputDir enabledRules files
    { tasks := [], total := 0, skipped := 0, svnQueries := [] }

/-- What a worker of the pool sends on the result channel for one task. -/
def workerOutcome (c : CodeChecker) (env : Env) (task : checkTask) : Option checkResult :=
  match (checkFileWithRule c env.readFile task.filePath task.rule).2 with
  | .error err =>
    some { task := task, result := { File := [], Result := [], AppliedRules := [] },
           err := some err }
  | .ok results =>
    match results with
    | [] => none
    | r :: _ => some { task := task, result := r, err := none }

/-- Local variables of the collection loop of `CheckDirectory` and the sink.
`added` is not a variable of the source: it records the argument of each call of
`AddResult`, in order. -/
structure CollectState where
  completed : Nat
  checkedFiles : List Str
  sink : SinkState
  added : List Result
deriving DecidableEq, Repr

/-- The loop `for result := range resultChan` of `CheckDirectory` over the
outcomes in the order of their arrival; an error is the `return` of the loop. -/
def collectResults (env : Env) : List checkResult → CollectState →
    CollectState × Except Str Unit
  | [], st => (st, .ok ())
  | result :: rest, st =>
    let st1 := { st with completed := st.completed + 1 }
    match result.err with
    | some err =>
      (st1, .error ("检查文件 ".toList ++ result.task.filePath ++ " 规则 ".toList
        ++ result.task.rule.Name ++ " 失败: ".toList ++ err))
    | none =>
      match AddResult env st1.sink result.result with
      | (sink1, .error err) =>
        ({ st1 with sink := sink1, added := st1.added ++ [result.result] },
          .error ("add result failed: ".toList ++ err))
      | (sink1, .ok _) =>
        let checkedFiles :=
          if result.task.filePath ∈ st1.checkedFiles then st1.checkedFiles
          else st1.checkedFiles ++ [result.task.filePath]
        collectResults env rest
          { st1 with sink := sink1, added := st1.added ++ [result.result],
                     checkedFiles := checkedFiles }

/-- Where a worker of the pool of `CheckDirectory` stands: at the head of the
loop `for task := range taskChan`, in the body of the loop with the task it
received, or after `wg.Done()`. -/
inductive Worker where
  | waiting : Worker
  | working : checkTask → Worker
  | returned : Worker
deriving DecidableEq, Repr

/-- State of the pool of `CheckDirectory`: the tasks the sending goroutine has
still to send, whether it has closed `taskChan`, the tasks in the buffer of
`taskChan`, the workers, and the tasks whose loop body has ended, in the order in
which that happened (the order of the sends on `resultChan`). -/
structure PoolState where
  unsent : List checkTask
  closed : Bool
  taskChan : List checkTask
  workers : List Worker
  finished : List checkTask
deriving DecidableEq, Repr

/-- A step of one goroutine of the pool: the sender sends its next task or
closes the channel, or the worker `i` receives a task, ends the body of its
loop, or leaves the loop and returns. -/
inductive PoolAction where
  | send : PoolAction
  | close : PoolAction
  | take : Nat → PoolAction
  | finish : Nat → PoolAction
  | leave : Nat → PoolAction
deriving DecidableEq, Repr

/-- The state after a step, or `none` when the goroutine cannot take that step.

* `send` is `taskChan <- task` for the next task of `tasks`; the buffer holds
  `len(tasks)` tasks, so the send does not wait.
* `close` is `close(taskChan)`, after the last send.
* `take i` is the receive of `for task := range taskChan` in the worker `i`: it
  takes the oldest task of the buffer.
* `finish i` is the body of the loop in the worker `i`: the call of
  `checkFileWithRule` and the send of its outcome, if any, on `resultChan`, whose
  buffer holds `len(tasks)` outcomes.
* `leave i` is the end of the loop in the worker `i`, when the channel is closed
  and empty. -/
def poolStep (s : PoolState) : PoolAction → Option PoolState
  | .send =>
    match s.unsent with
    | [] => none
    | task :: rest => some { s with unsent := rest, taskChan := s.taskChan ++ [task] }
  | .close =>
    if s.unsent = [] ∧ s.closed = false then some { s with closed := true } else none
  | .take i =>
    match s.workers[i]?, s.taskChan with
    | some .waiting, task :: rest =>
      some { s with taskChan := rest, workers := s.workers.set i (.working task) }
    | _, _ => none
  | .finish i =>
    match s.workers[i]? with
    | some (.working task) =>
      some { s with workers := s.workers.set i .waiting, finished := s.finished ++ [task] }
    | _ => none
  | .leave i =>
    match s.workers[i]? with
    | some .waiting =>
      if s.taskChan = [] ∧ s.closed = true then
        some { s with workers := s.workers.set i .returned }
      else none
    | _ => none

/-- The state after a sequence of steps, or `none` when one of them cannot be
taken. -/
def runPool : PoolState → List PoolAction → Option PoolState
  | s, [] => some s
  | s, a :: acts =>
    match poolStep s a with
    | none => none
    | some s1 => runPool s1 acts

/-- The pool when `CheckDirectory` has started its goroutines: `workers` workers
(`for i := 0; i < c.concurrency; i++`), nothing sent. -/
def poolStart (workers : Nat) (tasks : List checkTask) : PoolState :=
  { unsent := tasks, closed := false, taskChan := [],
    workers := List.replicate workers .waiting, finished := [] }

/-- The order in which the bodies of the workers ended in the run of the pool
that takes the steps `acts`, when after them every worker has returned
(`wg.Wait()` returns and `resultChan` is closed); `none` when the steps cannot be
taken or leave a worker in its loop. -/
def poolOrder (workers : Nat) (tasks : List checkTask) (acts : List PoolAction) :
    Option (List checkTask) :=
  match runPool (poolStart workers tasks) acts with
  | none => none
  | some s => if s.workers.all (fun w => w == .returned) then some s.finished else none

/-- The outcomes that reach the result channel, in order. With `concurrency`
below one no worker is started and the channel is closed with nothing sent;
otherwise the workers finish the tasks in the order `env.arrival`, each sending
its outcome, if it has one. -/
def poolOutcomes (c : CodeChecker) (env : Env) (tasks : List checkTask) : List checkResult :=
  if c.concurrency ≥ 1 then (env.arrival tasks).filterMap (workerOutcome c env) else []

/-- What a run of `CheckDirectory` leaves: the tasks it scheduled, the results
it passed to `AddResult`, the paths that exist at its end and its return value
(`none` for nil). -/
structure RunResult where
  tasks : List checkTask
  added : List Result
  paths : List Str
  err : Option Str
deriving DecidableEq, Repr

/-- The method `CheckDirectory`, started when the paths `paths` exist. -/
def CheckDirectory (c : CodeChecker) (env : Env) (paths : List Str)
    (directory outputDir : Str) : RunResult :=
  match env.walk directory with
  | .error err =>
    { tasks := [], added := [], paths := paths,
      err := some ("walk directory failed: ".toList ++ err) }
  | .ok files =>
    let f := NewMarkdownFormatter outputDir c.svnLogLimit c.svnPriorityAuthors
    match enumerate c env paths outputDir files with
    | .error err => { tasks := [], added := [], paths := paths, err := some err }
    | .ok st =>
      match collectResults env (poolOutcomes c env st.tasks)
          { completed := 0, checkedFiles := [], sink := { f := f, paths := paths },
            added := [] } with
      | (cs, .error err) =>
        { tasks := st.tasks, added := cs.added, paths := cs.sink.paths, err := some err }
      | (cs, .ok _) =>
        { tasks := st.tasks, added := cs.added, paths := cs.sink.paths, err := none }

/-! ## Definitions used to state the properties -/

/-- The outcome of the three steps of a unit for the chunk of index `i`: the
parsed text, or the error of the first of `BuildPrompt`, `CallAPI` and
`ParseResponse` that fails. -/
def reviewChunk (c : CodeChecker) (rule : Rule) (i : Nat) (chunk : Str) : Except Str Str :=
  match c.apiClient.BuildPrompt chunk [rule] c.apiModel c.maxTokens with
  | .error err => .error err
  | .ok payload =>
    match c.apiClient.CallAPI i payload c.apiURL c.apiKey with
    | .error err => .error err
    | .ok responseData => c.apiClient.ParseResponse responseData

/-- The rules a file is a candidate for, in the words of the specification: the
enabled rules that match its extension; when one of them has keywords the file
is read and the rules are filtered by its content; when a time filter is set and
the file has no commit after it, none. An error is a failed read. -/
def candidateRules (c : CodeChecker) (env : Env) (filePath : Str) : Except Str (List Rule) :=
  let byExtension :=
    c.rules.filter (fun r => r.Enabled && matchExtension env.unicodeToLower filePath r)
  let recent : Bool :=
    match c.svnFilterAfter with
    | some afterTime => HasCommitsAfterSafe env filePath afterTime
    | none => true
  if byExtension.any (fun r => decide (r.Keywords ≠ [])) then
    match env.readFile filePath with
    | .error err => .error ("read file failed: ".toList ++ err)
    | .ok content =>
      .ok (if recent then byExtension.filter (fun r => matchKeywords content r) else [])
  else .ok (if recent then byExtension else [])

/-- The candidate (file, rule) pairs of a list of files, file by file and rule
by rule in the configured order. -/
def candidatePairs (c : CodeChecker) (env : Env) : List Str → Except Str (List checkTask)
  | [] => .ok []
  | filePath :: rest =>
    match candidateRules c env filePath with
    | .error err => .error err
    | .ok rules =>
      match candidatePairs c env rest with
      | .error err => .error err
      | .ok pairs => .ok (rules.map (fun r => { filePath := filePath, rule := r }) ++ pairs)

/-- The identity of a task: its file path and the name of its rule. -/
def taskKey (t : checkTask) : Str × Str :=
  (t.filePath, t.rule.Name)

/-! ## A small configuration, for the concrete cases -/

/-- A rule for `.lua` files, without keywords. -/
def sampleRule : Rule :=
  { Name := "r".toList, Description := [], Extensions := [".lua".toList], Keywords := [],
    Enabled := true }

/-- A review client whose every call succeeds, with the text `finding`. -/
def sampleClient : AIClient :=
  { BuildPrompt := fun _ _ _ _ => .ok []
    ParseResponse := fun _ => .ok "finding".toList
    CallAPI := fun _ _ _ _ => .ok [] }

/-- A checker with the given rules and chunk budget, three workers and no time
filter. -/
def sampleChecker (rules : List Rule) (maxTextLength : Int) : CodeChecker :=
  { rules := rules, apiURL := [], apiKey := [], apiModel := [],
    maxTextLength := maxTextLength, maxTokens := 8192, svnLogLimit := 30,
    svnPriorityAuthors := [], svnFilterAfter := none, concurrency := 3,
    apiClient := sampleClient }

/-- An environment where the walk finds `files`, every file has the content
`content`, the `svn` command is not available, the file system accepts every
write, the tasks finish in the order they were queued and the case table is that
of the ASCII letters. -/
def sampleEnv (files : List Str) (content : Str) : Env :=
  { readFile := fun _ => .ok content
    walk := fun _ => .ok files
    HasCommitsAfter := fun _ _ => .error "SVN命令不可用".toList
    GetFileMostActiveAuthor := fun _ _ _ => .error "SVN命令不可用".toList
    mkdirAll := fun _ => none
    create := fun _ => none
    write := fun _ => none
    arrival := fun tasks => tasks
    unicodeToLower := Char.toLower }

/-- The part of the case table `unicode.ToLower` on the ASCII letters and on the
letter `É`, whose lower case is `é`; other characters are kept. -/
def latinLower (c : Char) : Char :=
  if c = 'É' then 'é' else c.toLower

/-! ## Further definitions used to state the properties -/

/-- The events of a unit whose steps all succeed, from the chunk of index `i`
on, for `k` more chunks of `total`: for each chunk in order its build, call and
parse, then a pause unless the chunk is the last one. -/
def unitEvents (total : Nat) : Nat → Nat → List Event
  | _, 0 => []
  | i, k + 1 =>
    [Event.build i, Event.call i, Event.parse i]
      ++ (if i + 1 < total then [Event.sleep] else [])
      ++ unitEvents total (i + 1) k

/-- The rules that match a file by extension and by keyword, before the time
filter: the enabled rules that match the extension, filtered by the content of
the file when one of them has keywords. An error is a failed read. -/
def matchingRules (c : CodeChecker) (env : Env) (filePath : Str) : Except Str (List Rule) :=
  let byExtension :=
    c.rules.filter (fun r => r.Enabled && matchExtension env.unicodeToLower filePath r)
  if byExtension.any (fun r => decide (r.Keywords ≠ [])) then
    match env.readFile filePath with
    | .error err => .error ("read file failed: ".toList ++ err)
    | .ok content => .ok (byExtension.filter (fun r => matchKeywords content r))
  else .ok byExtension

/-- The sink after `AddResult` has been called on each of the results, in
order. -/
def sinkAfter (env : Env) : SinkState → List Result → SinkState
  | st, [] => st
  | st, r :: rest => sinkAfter env (AddResult env st r).1 rest

/-- The non-empty strings of a list, in order. -/
def nonEmpty (lines : List Str) : List Str :=
  lines.filter (fun l => decide (l ≠ []))

/-- An environment like `sampleEnv` where no file can be created. -/
def fullDiskEnv (files : List Str) (content : Str) : Env :=
  { sampleEnv files content with create := fun _ => some "no space left on device".toList }

/-- The outcome of a unit that succeeded for the file `filePath` and the rule
`sampleRule`, with the merged text `finding`. -/
def okOutcome (filePath : Str) : checkResult :=
  { task := { filePath := filePath, rule := sampleRule },
    result := { File := filePath, Result := "finding\n\n".toList, AppliedRules := ["r".toList] },
    err := none }

/-- The outcome of a unit that failed for the file `filePath` and the rule
`sampleRule`. -/
def failedOutcome (filePath : Str) : checkResult :=
  { task := { filePath := filePath, rule := sampleRule },
    result := { File := [], Result := [], AppliedRules := [] },
    err := some "call API failed: timeout".toList }

/-- The error message of a returned value, `none` when there is no error. -/
def errorMessage {α : Type} : Except Str α → Option Str
  | .error err => some err
  | .ok _ => none

/-- An environment like `sampleEnv` where `svn` answers, and reports a commit
after the given time for the file `recentFile` only. -/
def svnEnv (files : List Str) (content recentFile : Str) : Env :=
  { sampleEnv files content with
    HasCommitsAfter := fun filePath _ => .ok (decide (filePath = recentFile)) }

/-- A checker with the rules `r` and `s` for `.lua` files and a time filter. -/
def filterChecker : CodeChecker :=
  { sampleChecker [sampleRule, { sampleRule with Name := "s".toList }] 4000 with
    svnFilterAfter := some 0 }

/-- The state of the enumeration of `filterChecker` over `src/a.lua` and
`src/b.lua` when only `src/b.lua` has a recent commit. -/
def filterState : EnumState :=
  { tasks := [{ filePath := "src/b.lua".toList, rule := sampleRule },
              { filePath := "src/b.lua".toList,
                rule := { sampleRule with Name := "s".toList } }],
    total := 4, skipped := 0,
    svnQueries := ["src/a.lua".toList, "src/b.lua".toList] }

/-- The collection loop's state at its start, for the output directory `out`
with nothing in it. -/
def emptyCollect : CollectState :=
  { completed := 0, checkedFiles := [],
    sink := { f := NewMarkdownFormatter "out".toList 30 [], paths := [] }, added := [] }

/-- The orders of arrival that the pool of `CheckDirectory` can produce: `order`
is the order in which the bodies of the workers end in some run of the pool with
`workers` workers over `tasks`, taken to the point where every worker has
returned. -/
def PoolRuns (workers : Nat) (tasks order : List checkTask) : Prop :=
  ∃ acts, poolOrder workers tasks acts = some order

/-- The tasks that the workers hold in the body of their loop. -/
def inFlight (workers : List Worker) : List checkTask :=
  workers.filterMap (fun w => match w with
    | .working task => some task
    | _ => none)

/-- What every state of a run of the pool over `tasks` satisfies: the tasks
finished, in a worker, in the channel and not yet sent are those of `tasks`, each
as many times; the channel is closed only after the last send; a worker has
returned only when the channel is closed and empty. -/
def PoolInv (tasks : List checkTask) (s : PoolState) : Prop :=
  (s.finished ++ inFlight s.workers ++ s.taskChan ++ s.unsent).Perm tasks
  ∧ (s.closed = true → s.unsent = [])
  ∧ (Worker.returned ∈ s.workers → s.closed = true ∧ s.taskChan = [])

/-- The steps of the run where the first worker handles every task as soon as
it is sent, and the workers return in turn after the channel is closed. -/
def inOrderActs (workers : Nat) (tasks : List checkTask) : List PoolAction :=
  tasks.flatMap (fun _ => [PoolAction.send, PoolAction.take 0, PoolAction.finish 0])
    ++ [PoolAction.close] ++ (List.range' 0 workers).map PoolAction.leave


/-! ## Lemmas on strings -/

theorem len_nil : len [] = 0 := rfl

theorem len_cons (c : Char) (s : Str) : len (c :: s) = c.utf8Size + len s := by
  simp [len]

theorem len_append (s t : Str) : len (s ++ t) = len s + len t := by
  simp [len]

theorem len_newline : len ['\n'] = 1 := by decide

theorem len_eq_zero_iff (s : Str) : len s = 0 ↔ s = [] := by
  cases s with
  | nil => simp [len]
  | cons c s =>
    have h := Char.utf8Size_pos c
    simp [len_cons]
    omega

theorem len_pos_iff (s : Str) : len s > 0 ↔ s ≠ [] := by
  have h := len_eq_zero_iff s
  constructor
  · intro h1 h2
    have := h.2 h2
    omega
  · intro h1
    have : len s ≠ 0 := fun h0 => h1 (h.1 h0)
    omega

theorem stringsSplit_ne_nil (sep : Char) (s : Str) : stringsSplit sep s ≠ [] := by
  cases s with
  | nil => simp [stringsSplit]
  | cons c cs =>
    simp only [stringsSplit]
    split_ifs
    · simp
    · split <;> simp

theorem sep_not_mem_of_mem_stringsSplit (sep : Char) (s l : Str)
    (h : l ∈ stringsSplit sep s) : sep ∉ l := by
  induction s generalizing l with
  | nil => simp [stringsSplit] at h; simp [h]
  | cons c cs ih =>
    simp only [stringsSplit] at h
    split_ifs at h with hc
    · rcases List.mem_cons.1 h with h1 | h1
      · simp [h1]
      · exact ih l h1
    · split at h
      · rename_i heq
        exact absurd heq (stringsSplit_ne_nil sep cs)
      · rename_i l0 ls heq
        rcases List.mem_cons.1 h with h1 | h1
        · subst h1
          have h0 : sep ∉ l0 := ih l0 (by rw [heq]; simp)
          intro hm
          rcases List.mem_cons.1 hm with h2 | h2
          · exact hc h2.symm
          · exact h0 h2
        · exact ih l (by rw [heq]; simp [h1])

theorem stringsSplit_all_nil_iff (sep : Char) (s : Str) :
    (∀ l ∈ stringsSplit sep s, l = []) ↔ ∀ c ∈ s, c = sep := by
  induction s with
  | nil => simp [stringsSplit]
  | cons c cs ih =>
    simp only [stringsSplit]
    split_ifs with hc
    · simp [hc, ih]
    · split
      · rename_i heq
        exact absurd heq (stringsSplit_ne_nil sep cs)
      · rename_i l0 ls heq
        simp [hc]

/-! ## Lemmas on the content chunker -/

theorem splitStep_blank (m : Int) (st : SplitState) (h1 : st.chunks = [])
    (h2 : st.currentChunk = []) :
    (splitStep m st []).chunks = [] ∧ (splitStep m st []).currentChunk = [] := by
  simp [splitStep, h1, h2, len]

theorem splitLoop_blank (m : Int) (lines : List Str) (hl : ∀ l ∈ lines, l = [])
    (st : SplitState) (h1 : st.chunks = []) (h2 : st.currentChunk = []) :
    (splitLoop m lines st).chunks = [] ∧ (splitLoop m lines st).currentChunk = [] := by
  induction lines generalizing st with
  | nil => exact ⟨h1, h2⟩
  | cons l ls ih =>
    have hl0 : l = [] := hl l (by simp)
    subst hl0
    have hs := splitStep_blank m st h1 h2
    simp only [splitLoop, List.foldl_cons]
    exact ih (fun l hl1 => hl l (by simp [hl1])) _ hs.1 hs.2

theorem splitStep_keeps (m : Int) (st : SplitState) (line : Str)
    (h : st.chunks ≠ [] ∨ st.currentChunk ≠ [] ∨ line ≠ []) :
    (splitStep m st line).chunks ≠ [] ∨ (splitStep m st line).currentChunk ≠ [] := by
  unfold splitStep
  by_cases hc : (len st.currentChunk : Int) + (len line : Int) + 1 > m ∧ len st.currentChunk > 0
  · left; simp [hc]
  · simp only [hc, if_false]
    rcases h with h | h | h
    · left; exact h
    · right
      have : len st.currentChunk > 0 := (len_pos_iff _).2 h
      simp [this]
    · right
      split_ifs <;> simp [h]

theorem splitLoop_keeps (m : Int) (lines : List Str) (st : SplitState)
    (h : st.chunks ≠ [] ∨ st.currentChunk ≠ [] ∨ ∃ l ∈ lines, l ≠ []) :
    (splitLoop m lines st).chunks ≠ [] ∨ (splitLoop m lines st).currentChunk ≠ [] := by
  induction lines generalizing st with
  | nil =>
    rcases h with h | h | ⟨l, hl, _⟩
    · exact Or.inl h
    · exact Or.inr h
    · simp at hl
  | cons l ls ih =>
    simp only [splitLoop, List.foldl_cons]
    apply ih
    by_cases hl : l = []
    · rcases h with h | h | ⟨l1, hl1, hne⟩
      · rcases splitStep_keeps m st l (Or.inl h) with h3 | h3
        · exact Or.inl h3
        · exact Or.inr (Or.inl h3)
      · rcases splitStep_keeps m st l (Or.inr (Or.inl h)) with h3 | h3
        · exact Or.inl h3
        · exact Or.inr (Or.inl h3)
      · rcases List.mem_cons.1 hl1 with h4 | h4
        · exact absurd (h4 ▸ hl) hne
        · exact Or.inr (Or.inr ⟨l1, h4, hne⟩)
    · rcases splitStep_keeps m st l (Or.inr (Or.inr hl)) with h3 | h3
      · exact Or.inl h3
      · exact Or.inr (Or.inl h3)

theorem splitStep_sound (m : Int) (lines : List Str) (st : SplitState) (line : Str)
    (hline : line ∈ lines)
    (hch : ∀ ch ∈ st.chunks, (len ch : Int) ≤ m ∨ (ch ∈ lines ∧ m < (len ch : Int)))
    (hcur : st.currentChunk = [] ∨ (len st.currentChunk : Int) ≤ m
      ∨ (st.currentChunk ∈ lines ∧ m < (len st.currentChunk : Int))) :
    (∀ ch ∈ (splitStep m st line).chunks,
        (len ch : Int) ≤ m ∨ (ch ∈ lines ∧ m < (len ch : Int)))
    ∧ ((splitStep m st line).currentChunk = []
        ∨ (len (splitStep m st line).currentChunk : Int) ≤ m
        ∨ ((splitStep m st line).currentChunk ∈ lines
            ∧ m < (len (splitStep m st line).currentChunk : Int))) := by
  have hline2 : line = [] ∨ (len line : Int) ≤ m ∨ (line ∈ lines ∧ m < (len line : Int)) := by
    by_cases h : (len line : Int) ≤ m
    · exact Or.inr (Or.inl h)
    · exact Or.inr (Or.inr ⟨hline, by omega⟩)
  unfold splitStep
  by_cases hc : (len st.currentChunk : Int) + (len line : Int) + 1 > m ∧ len st.currentChunk > 0
  · simp only [hc, and_self, if_true]
    constructor
    · intro ch hmem
      rcases List.mem_append.1 hmem with h | h
      · exact hch ch h
      · simp at h
        subst h
        rcases hcur with h1 | h1 | h1
        · have := (len_pos_iff _).1 hc.2
          exact absurd h1 this
        · exact Or.inl h1
        · exact Or.inr h1
    · simpa [len] using hline2
  · simp only [hc, if_false]
    refine ⟨hch, ?_⟩
    by_cases hp : len st.currentChunk > 0
    · simp only [hp, if_true]
      right; left
      have h3 : ¬ ((len st.currentChunk : Int) + (len line : Int) + 1 > m) := fun h => hc ⟨h, hp⟩
      simp only [len_append, len_newline]
      push_cast
      omega
    · simp only [hp, if_false]
      have h0 : st.currentChunk = [] := (len_eq_zero_iff _).1 (by omega)
      simpa [h0] using hline2

theorem splitLoop_sound (m : Int) (lines : List Str) (ls : List Str) (st : SplitState)
    (hls : ∀ l ∈ ls, l ∈ lines)
    (hch : ∀ ch ∈ st.chunks, (len ch : Int) ≤ m ∨ (ch ∈ lines ∧ m < (len ch : Int)))
    (hcur : st.currentChunk = [] ∨ (len st.currentChunk : Int) ≤ m
      ∨ (st.currentChunk ∈ lines ∧ m < (len st.currentChunk : Int))) :
    (∀ ch ∈ (splitLoop m ls st).chunks,
        (len ch : Int) ≤ m ∨ (ch ∈ lines ∧ m < (len ch : Int)))
    ∧ ((splitLoop m ls st).currentChunk = []
        ∨ (len (splitLoop m ls st).currentChunk : Int) ≤ m
        ∨ ((splitLoop m ls st).currentChunk ∈ lines
            ∧ m < (len (splitLoop m ls st).currentChunk : Int))) := by
  induction ls generalizing st with
  | nil => exact ⟨hch, hcur⟩
  | cons l ls ih =>
    have hs := splitStep_sound m lines st l (hls l (by simp)) hch hcur
    simp only [splitLoop, List.foldl_cons]
    exact ih _ (fun l1 h1 => hls l1 (by simp [h1])) hs.1 hs.2

theorem splitCodeContent_chunk_sound (m : Int) (content chunk : Str)
    (h : chunk ∈ splitCodeContent m content) :
    (len chunk : Int) ≤ m
      ∨ (chunk ∈ stringsSplit '\n' content ∧ m < (len chunk : Int)) := by
  unfold splitCodeContent at h
  by_cases hb : (len content : Int) ≤ m
  · simp only [hb, if_true, List.mem_singleton] at h
    subst h
    exact Or.inl hb
  · simp only [hb, if_false] at h
    have hs := splitLoop_sound m (stringsSplit '\n' content) (stringsSplit '\n' content)
      { chunks := [], currentChunk := [], lineCount := 0 } (fun l hl => hl)
      (by simp) (Or.inl rfl)
    split_ifs at h with hp
    · rcases List.mem_append.1 h with h1 | h1
      · exact hs.1 chunk h1
      · simp at h1
        subst h1
        rcases hs.2 with h2 | h2 | h2
        · exact absurd h2 ((len_pos_iff _).1 hp)
        · exact Or.inl h2
        · exact Or.inr h2
    · exact hs.1 chunk h

theorem splitCodeContent_eq_nil_iff (maxTextLength : Int) (content : Str) :
    splitCodeContent maxTextLength content = []
      ↔ (maxTextLength < (len content : Int) ∧ ∀ ch ∈ content, ch = '\n') := by
  unfold splitCodeContent
  by_cases hb : (len content : Int) ≤ maxTextLength
  · simp only [hb, if_true]
    constructor
    · intro h; simp at h
    · rintro ⟨h, _⟩; omega
  · simp only [hb, if_false]
    have hlt : maxTextLength < (len content : Int) := by omega
    by_cases hall : ∀ ch ∈ content, ch = '\n'
    · have hl := (stringsSplit_all_nil_iff '\n' content).2 hall
      have hs := splitLoop_blank maxTextLength (stringsSplit '\n' content) hl
        { chunks := [], currentChunk := [], lineCount := 0 } rfl rfl
      refine ⟨fun _ => ⟨hlt, hall⟩, fun _ => ?_⟩
      simp [hs.1, hs.2, len_nil]
    · have hl : ∃ l ∈ stringsSplit '\n' content, l ≠ [] := by
        by_contra hne
        push_neg at hne
        exact hall ((stringsSplit_all_nil_iff '\n' content).1 hne)
      have hs := splitLoop_keeps maxTextLength (stringsSplit '\n' content)
        { chunks := [], currentChunk := [], lineCount := 0 } (Or.inr (Or.inr hl))
      constructor
      · intro h
        exfalso
        split_ifs at h with hp
        · simp at h
        · rcases hs with h1 | h1
          · exact h1 h
          · exact hp ((len_pos_iff _).2 h1)
      · rintro ⟨_, h⟩
        exact absurd h hall


/-! ## Lemmas on the rule matcher -/

theorem stringsHasPrefix_iff (s p : Str) :
    stringsHasPrefix s p = true ↔ ∃ b, s = p ++ b := by
  induction p generalizing s with
  | nil => cases s <;> simp [stringsHasPrefix]
  | cons d p ih =>
    cases s with
    | nil => simp [stringsHasPrefix]
    | cons c s =>
      simp only [stringsHasPrefix, Bool.and_eq_true, beq_iff_eq, ih, List.cons_append,
        List.cons.injEq]
      constructor
      · rintro ⟨h1, b, h2⟩
        exact ⟨b, h1, h2⟩
      · rintro ⟨b, h1, h2⟩
        exact ⟨h1, b, h2⟩

theorem stringsContains_iff (s sub : Str) :
    stringsContains s sub = true ↔ ∃ a b, s = a ++ sub ++ b := by
  induction s with
  | nil =>
    simp only [stringsContains, stringsHasPrefix_iff]
    constructor
    · rintro ⟨b, h⟩
      exact ⟨[], b, by simpa using h⟩
    · rintro ⟨a, b, h⟩
      have h1 : a ++ sub ++ b = [] := h.symm
      simp only [List.append_eq_nil] at h1
      exact ⟨[], by simp [h1.1.2]⟩
  | cons c s ih =>
    simp only [stringsContains, Bool.or_eq_true, stringsHasPrefix_iff, ih]
    constructor
    · rintro (⟨b, h⟩ | ⟨a, b, h⟩)
      · exact ⟨[], b, by simpa using h⟩
      · exact ⟨c :: a, b, by simp [h]⟩
    · rintro ⟨a, b, h⟩
      cases a with
      | nil => exact Or.inl ⟨b, by simpa using h⟩
      | cons a0 a =>
        simp only [List.cons_append, List.cons.injEq] at h
        exact Or.inr ⟨a, b, h.2⟩

theorem matchExtensionLoop_eq_any (lower : Char → Char) (ext : Str) (exts : List Str) :
    matchExtensionLoop lower ext exts
      = exts.any (fun e => stringsToLower lower e == ext) := by
  induction exts with
  | nil => rfl
  | cons e es ih =>
    simp only [matchExtensionLoop, List.any_cons, ih]
    by_cases h : stringsToLower lower e = ext <;> simp [h]

theorem matchKeywordsLoop_eq_any (content : Str) (kws : List Str) :
    matchKeywordsLoop content kws = kws.any (fun k => stringsContains content k) := by
  induction kws with
  | nil => rfl
  | cons k ks ih =>
    simp only [matchKeywordsLoop, List.any_cons, ih]
    by_cases h : stringsContains content k = true <;> simp [h]

theorem matchKeywords_eq (content : Str) (rule : Rule) :
    matchKeywords content rule
      = (rule.Keywords.isEmpty || rule.Keywords.any (fun k => stringsContains content k)) := by
  unfold matchKeywords
  cases h : rule.Keywords with
  | nil => simp
  | cons k ks => simp [matchKeywordsLoop_eq_any]

theorem applicable_foldl (lower : Char → Char) (filePath : Str) (rules : List Rule)
    (acc : List Rule) (b : Bool) :
    rules.foldl (applicableStep lower filePath) (acc, b)
      = (acc ++ rules.filter (fun r => r.Enabled && matchExtension lower filePath r),
         b || (rules.filter (fun r => r.Enabled && matchExtension lower filePath r)).any
                (fun r => decide (r.Keywords.length > 0))) := by
  induction rules generalizing acc b with
  | nil => simp
  | cons r rs ih =>
    simp only [List.foldl_cons]
    by_cases he : r.Enabled = true
    · by_cases hm : matchExtension lower filePath r = true
      · by_cases hk : r.Keywords.length > 0
        · simp [applicableStep, he, hm, hk, ih]
        · simp [applicableStep, he, hm, hk, ih]
      · simp [applicableStep, he, hm, ih]
    · simp [applicableStep, he, ih]

theorem filter_foldl (content : Str) (rules : List Rule) (acc : List Rule) :
    rules.foldl
      (fun filtered rule => if matchKeywords content rule then filtered ++ [rule] else filtered)
      acc
      = acc ++ rules.filter (fun r => matchKeywords content r) := by
  induction rules generalizing acc with
  | nil => simp
  | cons r rs ih =>
    simp only [List.foldl_cons, ih]
    by_cases h : matchKeywords content r = true <;> simp [h]

theorem mergeLoop_single (x : Str) (i : Nat) (b : Str) :
    mergeLoop 1 i [x] b = b ++ x ++ "\n\n".toList := by
  simp [mergeLoop]

/-! ## Lemmas on the review of one unit -/

theorem checkChunks_cons_ok (c : CodeChecker) (rule : Rule) (total i : Nat) (chunk : Str)
    (rest acc : List Str) (log : List Event) (t : Str)
    (h : reviewChunk c rule i chunk = .ok t) :
    ∃ log1, checkChunks c rule total i (chunk :: rest) acc log
      = checkChunks c rule total (i + 1) rest (acc ++ [t]) log1 := by
  unfold reviewChunk at h
  refine ⟨if (i : Int) < (total : Int) - 1
    then log ++ [Event.build i, Event.call i, Event.parse i] ++ [Event.sleep]
    else log ++ [Event.build i, Event.call i, Event.parse i], ?_⟩
  rw [checkChunks]
  cases hb : c.apiClient.BuildPrompt chunk [rule] c.apiModel c.maxTokens with
  | error e => simp [hb] at h
  | ok payload =>
    simp only [hb] at h ⊢
    cases hc : c.apiClient.CallAPI i payload c.apiURL c.apiKey with
    | error e => simp [hc] at h
    | ok resp =>
      simp only [hc] at h ⊢
      cases hp : c.apiClient.ParseResponse resp with
      | error e => simp [hp] at h
      | ok t1 =>
        rw [hp] at h
        injection h with h
        subst h
        rfl

theorem checkChunks_cons_error (c : CodeChecker) (rule : Rule) (total i : Nat) (chunk : Str)
    (rest acc : List Str) (log : List Event) (e : Str)
    (h : reviewChunk c rule i chunk = .error e) :
    ∃ e1, (checkChunks c rule total i (chunk :: rest) acc log).2 = .error e1 := by
  unfold reviewChunk at h
  rw [checkChunks]
  cases hb : c.apiClient.BuildPrompt chunk [rule] c.apiModel c.maxTokens with
  | error e0 => exact ⟨_, rfl⟩
  | ok payload =>
    simp only [hb] at h ⊢
    cases hc : c.apiClient.CallAPI i payload c.apiURL c.apiKey with
    | error e0 => exact ⟨_, rfl⟩
    | ok resp =>
      simp only [hc] at h ⊢
      cases hp : c.apiClient.ParseResponse resp with
      | error e0 => exact ⟨_, rfl⟩
      | ok t1 => simp [hp] at h

theorem checkChunks_cases (c : CodeChecker) (rule : Rule) (total : Nat) (chunks : List Str) :
    ∀ (i : Nat) (acc : List Str) (log : List Event),
      (∃ texts : List Str, texts.length = chunks.length
          ∧ (∀ j chunk, chunks[j]? = some chunk →
              ∃ t, texts[j]? = some t ∧ reviewChunk c rule (i + j) chunk = .ok t)
          ∧ (checkChunks c rule total i chunks acc log).2 = .ok (acc ++ texts))
      ∨ (∃ j chunk e, chunks[j]? = some chunk ∧ reviewChunk c rule (i + j) chunk = .error e
          ∧ ∃ e1, (checkChunks c rule total i chunks acc log).2 = .error e1) := by
  induction chunks with
  | nil =>
    intro i acc log
    left
    refine ⟨[], rfl, ?_, ?_⟩
    · intro j chunk h; simp at h
    · simp [checkChunks]
  | cons chunk rest ih =>
    intro i acc log
    cases hr : reviewChunk c rule i chunk with
    | error e =>
      right
      exact ⟨0, chunk, e, by simp, by simpa using hr,
        checkChunks_cons_error c rule total i chunk rest acc log e hr⟩
    | ok t =>
      obtain ⟨log1, hstep⟩ := checkChunks_cons_ok c rule total i chunk rest acc log t hr
      rw [hstep]
      rcases ih (i + 1) (acc ++ [t]) log1 with ⟨texts, hlen, hpt, hres⟩ | ⟨j, ch, e, hj, he, hres⟩
      · left
        refine ⟨t :: texts, by simp [hlen], ?_, by simpa using hres⟩
        intro j ch hj
        cases j with
        | zero =>
          simp only [List.getElem?_cons_zero, Option.some.injEq] at hj
          subst hj
          exact ⟨t, by simp, by simpa using hr⟩
        | succ j =>
          simp only [List.getElem?_cons_succ] at hj
          obtain ⟨t1, h1, h2⟩ := hpt j ch hj
          refine ⟨t1, by simpa using h1, ?_⟩
          have : i + (j + 1) = i + 1 + j := by omega
          rw [this]; exact h2
      · right
        refine ⟨j + 1, ch, e, by simpa using hj, ?_, hres⟩
        have : i + (j + 1) = i + 1 + j := by omega
        rw [this]; exact he

theorem texts_unique (c : CodeChecker) (rule : Rule) (chunks texts1 texts2 : List Str)
    (h1 : texts1.length = chunks.length) (h2 : texts2.length = chunks.length)
    (p1 : ∀ j chunk, chunks[j]? = some chunk →
      ∃ t, texts1[j]? = some t ∧ reviewChunk c rule j chunk = .ok t)
    (p2 : ∀ j chunk, chunks[j]? = some chunk →
      ∃ t, texts2[j]? = some t ∧ reviewChunk c rule j chunk = .ok t) :
    texts1 = texts2 := by
  apply List.ext_getElem? 
  intro j
  by_cases hj : j < chunks.length
  · have hc : chunks[j]? = some chunks[j] := List.getElem?_eq_getElem hj
    obtain ⟨t1, ht1, hr1⟩ := p1 j _ hc
    obtain ⟨t2, ht2, hr2⟩ := p2 j _ hc
    rw [hr1] at hr2
    injection hr2 with hr2
    rw [ht1, ht2, hr2]
  · rw [List.getElem?_eq_none (by omega), List.getElem?_eq_none (by omega)]

/-! ## Lemmas on the enumeration -/

theorem scheduleStep_foldl_tasks (paths : List Str) (outputDir filePath : Str)
    (rules : List Rule) (st : EnumState) :
    (rules.foldl (scheduleStep paths outputDir filePath) st).tasks
      = st.tasks ++ (rules.map (fun r => ({ filePath := filePath, rule := r } : checkTask))).filter
          (fun t => !resultExists paths t.filePath t.rule.Name outputDir) := by
  induction rules generalizing st with
  | nil => simp
  | cons r rs ih =>
    simp only [List.foldl_cons, ih, List.map_cons]
    by_cases h : resultExists paths filePath r.Name outputDir = true
    · simp [scheduleStep, h]
    · simp [scheduleStep, h]

theorem scheduleFile_tasks (c : CodeChecker) (env : Env) (paths : List Str) (outputDir : Str)
    (n : Nat) (st : EnumState) (filePath : Str) (rules : List Rule) :
    (scheduleFile c env paths outputDir n st filePath rules).tasks
      = st.tasks ++
        ((if (match c.svnFilterAfter with
              | some afterTime => HasCommitsAfterSafe env filePath afterTime
              | none => true) = true then rules else []).map
            (fun r => ({ filePath := filePath, rule := r } : checkTask))).filter
          (fun t => !resultExists paths t.filePath t.rule.Name outputDir) := by
  unfold scheduleFile
  cases hf : c.svnFilterAfter with
  | none => simp [scheduleStep_foldl_tasks]
  | some afterTime =>
    by_cases hr : HasCommitsAfterSafe env filePath afterTime = true
    · simp [hr, scheduleStep_foldl_tasks]
    · simp [hr]

theorem getApplicableRules_eq (lower : Char → Char) (rules : List Rule) (filePath : Str) :
    getApplicableRules lower rules filePath
      = (rules.filter (fun r => r.Enabled && matchExtension lower filePath r),
         (rules.filter (fun r => r.Enabled && matchExtension lower filePath r)).any
            (fun r => decide (r.Keywords ≠ []))) := by
  unfold getApplicableRules
  rw [applicable_foldl]
  simp only [List.nil_append, Bool.false_or, Prod.mk.injEq, true_and]
  congr 1
  funext r
  cases r.Keywords <;> simp

theorem filterRulesByContent_eq (rules : List Rule) (content : Str) :
    filterRulesByContent rules content = rules.filter (fun r => matchKeywords content r) := by
  unfold filterRulesByContent
  rw [filter_foldl]
  simp

theorem enumFile_tasks (c : CodeChecker) (env : Env) (paths : List Str) (outputDir : Str)
    (n : Nat) (st : EnumState) (filePath : Str) :
    (enumFile c env paths outputDir n st filePath).map (fun s => s.tasks)
      = (candidateRules c env filePath).map (fun rules =>
          st.tasks ++ (rules.map (fun r => ({ filePath := filePath, rule := r } : checkTask))).filter
            (fun t => !resultExists paths t.filePath t.rule.Name outputDir)) := by
  unfold enumFile candidateRules
  rw [getApplicableRules_eq]
  simp only
  generalize c.rules.filter (fun r => r.Enabled && matchExtension env.unicodeToLower filePath r) = byExt
  by_cases h0 : byExt.length = 0
  · have : byExt = [] := List.length_eq_zero.1 h0
    subst this
    simp [Except.map]
  · simp only [h0, if_false]
    by_cases hk : byExt.any (fun r => decide (r.Keywords ≠ [])) = true
    · simp only [hk, if_true]
      cases hread : env.readFile filePath with
      | error e => simp [Except.map]
      | ok content =>
        simp only [filterRulesByContent_eq]
        by_cases h1 : (byExt.filter (fun r => matchKeywords content r)).length = 0
        · have : byExt.filter (fun r => matchKeywords content r) = [] := List.length_eq_zero.1 h1
          simp [Except.map, this]
        · simp only [h1, if_false, Except.map, scheduleFile_tasks]
    · have hk1 : byExt.any (fun r => decide (r.Keywords ≠ [])) = false := by
        simpa using hk
      simp only [hk1, Bool.false_eq_true, ↓reduceIte, Except.map, Except.ok.injEq]
      exact scheduleFile_tasks c env paths outputDir n st filePath byExt

theorem enumFiles_tasks (c : CodeChecker) (env : Env) (paths : List Str) (outputDir : Str)
    (n : Nat) (files : List Str) (st : EnumState) :
    (enumFiles c env paths outputDir n files st).map (fun s => s.tasks)
      = (candidatePairs c env files).map (fun pairs =>
          st.tasks ++ pairs.filter
            (fun t => !resultExists paths t.filePath t.rule.Name outputDir)) := by
  induction files generalizing st with
  | nil => simp [enumFiles, candidatePairs, Except.map]
  | cons f rest ih =>
    have hf := enumFile_tasks c env paths outputDir n st f
    unfold enumFiles candidatePairs
    cases h1 : enumFile c env paths outputDir n st f with
    | error e =>
      rw [h1] at hf
      cases h2 : candidateRules c env f with
      | error e2 =>
        rw [h2] at hf
        simp only [Except.map] at hf ⊢
        exact hf
      | ok rs =>
        rw [h2] at hf
        simp [Except.map] at hf
    | ok st1 =>
      rw [h1] at hf
      cases h2 : candidateRules c env f with
      | error e2 =>
        rw [h2] at hf
        simp [Except.map] at hf
      | ok rs =>
        rw [h2] at hf
        simp only [Except.map, Except.ok.injEq] at hf
        simp only
        rw [ih st1]
        cases h3 : candidatePairs c env rest with
        | error e3 => simp [Except.map]
        | ok pairs => simp [Except.map, hf]

theorem checkDirectory_tasks (c : CodeChecker) (env : Env) (paths : List Str)
    (directory outputDir : Str) :
    (CheckDirectory c env paths directory outputDir).tasks
      = match env.walk directory with
        | .error _ => []
        | .ok files =>
          match enumerate c env paths outputDir files with
          | .error _ => []
          | .ok st => st.tasks := by
  unfold CheckDirectory
  cases env.walk directory with
  | error e => rfl
  | ok files =>
    simp only
    cases enumerate c env paths outputDir files with
    | error e => rfl
    | ok st =>
      simp only
      generalize collectResults env (poolOutcomes c env st.tasks) _ = r
      obtain ⟨cs, res⟩ := r
      cases res <;> rfl

theorem enumerate_tasks (c : CodeChecker) (env : Env) (paths : List Str) (outputDir : Str)
    (files : List Str) :
    (enumerate c env paths outputDir files).map (fun st => st.tasks)
      = (candidatePairs c env files).map (fun pairs =>
          pairs.filter (fun t => !resultExists paths t.filePath t.rule.Name outputDir)) := by
  unfold enumerate
  rw [enumFiles_tasks]
  simp

theorem enumerate_tasks_fresh (c : CodeChecker) (env : Env) (paths : List Str)
    (outputDir : Str) (files : List Str) (st : EnumState)
    (h : enumerate c env paths outputDir files = .ok st) :
    ∀ t ∈ st.tasks, resultExists paths t.filePath t.rule.Name outputDir = false := by
  have h1 := enumerate_tasks c env paths outputDir files
  rw [h] at h1
  cases h2 : candidatePairs c env files with
  | error e => rw [h2] at h1; simp [Except.map] at h1
  | ok pairs =>
    rw [h2] at h1
    simp only [Except.map, Except.ok.injEq] at h1
    intro t ht
    rw [h1, List.mem_filter] at ht
    simpa using ht.2

theorem candidateRules_sublist (c : CodeChecker) (env : Env) (filePath : Str)
    (rules : List Rule) (h : candidateRules c env filePath = .ok rules) :
    rules.Sublist (c.rules.filter (fun r => r.Enabled)) := by
  have hext : (c.rules.filter (fun r => r.Enabled && matchExtension env.unicodeToLower filePath r)).Sublist
      (c.rules.filter (fun r => r.Enabled)) := by
    have : c.rules.filter (fun r => r.Enabled && matchExtension env.unicodeToLower filePath r)
        = (c.rules.filter (fun r => r.Enabled)).filter (fun r => matchExtension env.unicodeToLower filePath r) := by
      rw [List.filter_filter]
      congr 1
      funext r
      exact Bool.and_comm _ _
    rw [this]
    exact List.filter_sublist _
  unfold candidateRules at h
  simp only at h
  split_ifs at h <;>
  first
  | (simp only [Except.ok.injEq] at h
     subst h
     first
     | exact hext
     | exact List.nil_sublist _)
  | (cases hread : env.readFile filePath with
     | error e => rw [hread] at h; cases h
     | ok content =>
       rw [hread] at h
       simp only [Except.ok.injEq] at h
       subst h
       first
       | exact (List.filter_sublist _).trans hext
       | exact List.nil_sublist _)

theorem candidatePairs_keys (c : CodeChecker) (env : Env)
    (hnames : ((c.rules.filter (fun r => r.Enabled)).map (fun r => r.Name)).Nodup)
    (files : List Str) (hfiles : files.Nodup) (pairs : List checkTask)
    (h : candidatePairs c env files = .ok pairs) :
    (pairs.map taskKey).Nodup ∧ ∀ t ∈ pairs, t.filePath ∈ files := by
  induction files generalizing pairs with
  | nil =>
    simp only [candidatePairs, Except.ok.injEq] at h
    subst h
    simp
  | cons f rest ih =>
    unfold candidatePairs at h
    cases h1 : candidateRules c env f with
    | error e => rw [h1] at h; cases h
    | ok rs =>
      rw [h1] at h
      simp only at h
      cases h2 : candidatePairs c env rest with
      | error e => rw [h2] at h; cases h
      | ok ps =>
        rw [h2] at h
        simp only [Except.ok.injEq] at h
        subst h
        have hnd := List.nodup_cons.1 hfiles
        obtain ⟨ih1, ih2⟩ := ih hnd.2 ps h2
        have hsub := candidateRules_sublist c env f rs h1
        have hrs : (rs.map (fun r => r.Name)).Nodup := (hsub.map _).nodup hnames
        constructor
        · rw [List.map_append, List.nodup_append]
          refine ⟨?_, ih1, ?_⟩
          · rw [List.map_map]
            have : (taskKey ∘ fun r => ({ filePath := f, rule := r } : checkTask))
                = (fun n => (f, n)) ∘ (fun r : Rule => r.Name) := by
              funext r; rfl
            rw [this, ← List.map_map]
            exact hrs.map (fun a b hab => by simpa using hab)
          · intro k hk1 hk2
            simp only [List.mem_map] at hk1 hk2
            obtain ⟨t1, ⟨r, _, hr⟩, hk1⟩ := hk1
            obtain ⟨t2, ht2, hk2⟩ := hk2
            have h3 := ih2 t2 ht2
            have h4 : t2.filePath = f := by
              have : taskKey t2 = taskKey t1 := by rw [hk1, hk2]
              rw [← hr] at this
              simpa [taskKey] using congrArg Prod.fst this
            exact hnd.1 (h4 ▸ h3)
        · intro t ht
          rcases List.mem_append.1 ht with h3 | h3
          · simp only [List.mem_map] at h3
            obtain ⟨r, _, hr⟩ := h3
            subst hr
            simp
          · exact List.mem_cons_of_mem _ (ih2 t h3)

theorem workerOutcome_task (c : CodeChecker) (env : Env) (task : checkTask) (r : checkResult)
    (h : workerOutcome c env task = some r) : r.task = task := by
  unfold workerOutcome at h
  split at h
  · simp only [Option.some.injEq] at h
    subst h
    rfl
  · split at h
    · cases h
    · simp only [Option.some.injEq] at h
      subst h
      rfl

/-! ## Lemmas on the events of a unit -/

theorem checkChunks_log_once (c : CodeChecker) (rule : Rule) (total : Nat) (chunks : List Str) :
    ∀ (i : Nat) (acc : List Str) (log : List Event),
      (∀ k, i ≤ k → Event.build k ∉ log ∧ Event.call k ∉ log ∧ Event.parse k ∉ log) →
      (∀ k, log.count (Event.build k) ≤ 1 ∧ log.count (Event.call k) ≤ 1
        ∧ log.count (Event.parse k) ≤ 1) →
      ∀ k, (checkChunks c rule total i chunks acc log).1.count (Event.build k) ≤ 1
        ∧ (checkChunks c rule total i chunks acc log).1.count (Event.call k) ≤ 1
        ∧ (checkChunks c rule total i chunks acc log).1.count (Event.parse k) ≤ 1 := by
  induction chunks with
  | nil =>
    intro i acc log _ hcount k
    simpa [checkChunks] using hcount k
  | cons chunk rest ih =>
    intro i acc log hfresh hcount k
    have hi := hfresh i (Nat.le_refl i)
    have hb0 : log.count (Event.build i) = 0 := List.count_eq_zero.2 hi.1
    have hc0 : log.count (Event.call i) = 0 := List.count_eq_zero.2 hi.2.1
    have hp0 : log.count (Event.parse i) = 0 := List.count_eq_zero.2 hi.2.2
    have hk := hcount k
    rw [checkChunks]
    cases c.apiClient.BuildPrompt chunk [rule] c.apiModel c.maxTokens with
    | error e =>
      simp only [List.count_append, List.count_cons, List.count_nil]
      by_cases hki : k = i
      · subst hki; simp [hb0, hc0, hp0]
      · have : i ≠ k := fun h => hki h.symm
        simp [this]; omega
    | ok payload =>
      simp only
      cases c.apiClient.CallAPI i payload c.apiURL c.apiKey with
      | error e =>
        simp only [List.count_append, List.count_cons, List.count_nil]
        by_cases hki : k = i
        · subst hki; simp [hb0, hc0, hp0]
        · have : i ≠ k := fun h => hki h.symm
          simp [this]; omega
      | ok resp =>
        simp only
        cases c.apiClient.ParseResponse resp with
        | error e =>
          simp only [List.count_append, List.count_cons, List.count_nil]
          by_cases hki : k = i
          · subst hki; simp [hb0, hc0, hp0]
          · have : i ≠ k := fun h => hki h.symm
            simp [this]; omega
        | ok t =>
          simp only
          apply ih
          · intro k1 hk1
            have h1 := hfresh k1 (by omega)
            have hne : i ≠ k1 := by omega
            have hne1 : k1 ≠ i := by omega
            split_ifs <;> simp [h1.1, h1.2.1, h1.2.2, hne, hne1]
          · intro k1
            have h1 := hcount k1
            by_cases hki : k1 = i
            · subst hki
              split_ifs <;>
                simp [List.count_append, List.count_cons, hb0, hc0, hp0]
            · have : i ≠ k1 := fun h => hki h.symm
              split_ifs <;>
                (simp [List.count_append, List.count_cons, this]; omega)

theorem checkFileWithRule_log (c : CodeChecker) (readFile : Str → Except Str Str)
    (filePath : Str) (rule : Rule) :
    (checkFileWithRule c readFile filePath rule).1
      = match readFile filePath with
        | .error _ => []
        | .ok content =>
          (checkChunks c rule (splitCodeContent c.maxTextLength content).length 0
            (splitCodeContent c.maxTextLength content) [] []).1 := by
  unfold checkFileWithRule
  cases readFile filePath with
  | error e => rfl
  | ok content =>
    simp only
    generalize checkChunks c rule (splitCodeContent c.maxTextLength content).length 0
      (splitCodeContent c.maxTextLength content) [] [] = r
    obtain ⟨log, res⟩ := r
    cases res <;> rfl

/-! ## Lemmas on the result merge -/

theorem mergeLoop_many (total : Nat) (h : total > 1) (results : List Str) :
    ∀ (i : Nat) (b : Str),
      mergeLoop total i results b
        = b ++ ((results.enumFrom i).map
            (fun p => "## 第".toList ++ (Nat.repr (p.1 + 1)).toList ++ "部分\n\n".toList
              ++ p.2 ++ "\n\n".toList)).flatten := by
  induction results with
  | nil => intro i b; simp [mergeLoop]
  | cons r rs ih =>
    intro i b
    simp only [mergeLoop, h, if_true, ih, List.enumFrom_cons, List.map_cons,
      List.flatten_cons, partHeading, List.append_assoc]

/-! ## Lemmas on the events of a unit whose steps succeed -/

theorem checkChunks_cons_ok_log (c : CodeChecker) (rule : Rule) (total i : Nat) (chunk : Str)
    (rest acc : List Str) (log : List Event) (t : Str)
    (h : reviewChunk c rule i chunk = .ok t) :
    checkChunks c rule total i (chunk :: rest) acc log
      = checkChunks c rule total (i + 1) rest (acc ++ [t])
          (log ++ [Event.build i, Event.call i, Event.parse i]
            ++ (if i + 1 < total then [Event.sleep] else [])) := by
  unfold reviewChunk at h
  rw [checkChunks]
  cases hb : c.apiClient.BuildPrompt chunk [rule] c.apiModel c.maxTokens with
  | error e => simp [hb] at h
  | ok payload =>
    simp only [hb] at h ⊢
    cases hc : c.apiClient.CallAPI i payload c.apiURL c.apiKey with
    | error e => simp [hc] at h
    | ok resp =>
      simp only [hc] at h ⊢
      cases hp : c.apiClient.ParseResponse resp with
      | error e => simp [hp] at h
      | ok t1 =>
        rw [hp] at h
        injection h with h
        subst h
        simp only
        by_cases hlt : i + 1 < total
        · have : (i : Int) < (total : Int) - 1 := by omega
          simp [hlt, this]
        · have : ¬ (i : Int) < (total : Int) - 1 := by omega
          simp [hlt, this]

theorem checkChunks_ok_log (c : CodeChecker) (rule : Rule) (total : Nat) (chunks : List Str) :
    ∀ (i : Nat) (acc : List Str) (log : List Event),
      (∀ j chunk, chunks[j]? = some chunk → ∃ t, reviewChunk c rule (i + j) chunk = .ok t) →
      (checkChunks c rule total i chunks acc log).1
        = log ++ unitEvents total i chunks.length := by
  induction chunks with
  | nil => intro i acc log _; simp [checkChunks, unitEvents]
  | cons chunk rest ih =>
    intro i acc log hok
    obtain ⟨t, ht⟩ := hok 0 chunk (by simp)
    rw [checkChunks_cons_ok_log c rule total i chunk rest acc log t (by simpa using ht)]
    rw [ih (i + 1)]
    · simp [unitEvents, List.append_assoc]
    · intro j ch hj
      have h1 := hok (j + 1) ch (by simpa using hj)
      have : i + (j + 1) = i + 1 + j := by omega
      rw [this] at h1
      exact h1

theorem unitEvents_count_sleep (total : Nat) :
    ∀ (k i : Nat), i + k ≤ total →
      (unitEvents total i k).count Event.sleep
        = k - (if i + k = total ∧ k > 0 then 1 else 0) := by
  intro k
  induction k with
  | zero => intro i _; simp [unitEvents]
  | succ k ih =>
    intro i hle
    have hrec := ih (i + 1) (by omega)
    simp only [unitEvents, List.count_append, hrec]
    by_cases hlt : i + 1 < total
    · simp only [hlt, if_true]
      have h1 : List.count Event.sleep [Event.build i, Event.call i, Event.parse i] = 0 := by
        simp
      have h2 : List.count Event.sleep [Event.sleep] = 1 := by decide
      rw [h1, h2]
      by_cases hk : i + 1 + k = total ∧ k > 0
      · have hk2 : i + (k + 1) = total ∧ k + 1 > 0 := by omega
        simp only [hk, hk2, and_self, if_true]
        omega
      · have hk2 : ¬ (i + (k + 1) = total ∧ k + 1 > 0) := by omega
        simp only [hk, hk2, if_false]
        omega
    · simp only [hlt, if_false]
      have h1 : List.count Event.sleep [Event.build i, Event.call i, Event.parse i] = 0 := by
        simp
      have hk0 : k = 0 := by omega
      subst hk0
      have hk2 : i + (0 + 1) = total ∧ 0 + 1 > 0 := by omega
      simp only [h1, List.count_nil, hk2, and_self, if_true]
      simp

theorem unitEvents_between (total : Nat) :
    ∀ (k i j : Nat), i ≤ j → j + 1 < i + k → j + 1 < total →
      ∃ pre post, unitEvents total i k
        = pre ++ [Event.parse j, Event.sleep, Event.build (j + 1)] ++ post := by
  intro k
  induction k with
  | zero => intro i j h1 h2 _; omega
  | succ k ih =>
    intro i j h1 h2 h3
    by_cases hij : j = i
    · subst hij
      cases k with
      | zero => omega
      | succ k =>
        refine ⟨[Event.build j, Event.call j],
          [Event.call (j + 1), Event.parse (j + 1)]
            ++ (if j + 1 + 1 < total then [Event.sleep] else [])
            ++ unitEvents total (j + 1 + 1) k, ?_⟩
        simp [unitEvents, h3]
    · obtain ⟨pre, post, h⟩ := ih (i + 1) j (by omega) (by omega) h3
      refine ⟨[Event.build i, Event.call i, Event.parse i]
        ++ (if i + 1 < total then [Event.sleep] else []) ++ pre, post, ?_⟩
      simp only [unitEvents, h, List.append_assoc]

theorem unitEvents_ne_nil (total i k : Nat) : unitEvents total i (k + 1) ≠ [] := by
  simp [unitEvents]

theorem unitEvents_getLast (total : Nat) :
    ∀ (k i : Nat), i + (k + 1) = total →
      (unitEvents total i (k + 1)).getLast? = some (Event.parse (total - 1)) := by
  intro k
  induction k with
  | zero =>
    intro i h
    have h1 : ¬ i + 1 < total := by omega
    have h2 : total - 1 = i := by omega
    simp [unitEvents, h1, h2]
  | succ k ih =>
    intro i h
    have hrec := ih (i + 1) (by omega)
    rw [unitEvents, List.getLast?_append_of_ne_nil _ (unitEvents_ne_nil total (i + 1) k)]
    exact hrec

/-! ## Lemmas on the time filter -/

theorem scheduleStep_foldl_svnQueries (paths : List Str) (outputDir filePath : Str)
    (rules : List Rule) (st : EnumState) :
    (rules.foldl (scheduleStep paths outputDir filePath) st).svnQueries = st.svnQueries := by
  induction rules generalizing st with
  | nil => rfl
  | cons r rs ih =>
    simp only [List.foldl_cons, ih]
    unfold scheduleStep
    split_ifs <;> rfl

theorem scheduleFile_svnQueries (c : CodeChecker) (env : Env) (paths : List Str)
    (outputDir : Str) (n : Nat) (st : EnumState) (filePath : Str) (rules : List Rule)
    (afterTime : Time) (hfilter : c.svnFilterAfter = some afterTime) :
    (scheduleFile c env paths outputDir n st filePath rules).svnQueries
      = st.svnQueries ++ [filePath] := by
  unfold scheduleFile
  simp only [hfilter]
  split_ifs
  · rfl
  · rw [scheduleStep_foldl_svnQueries]

theorem enumFile_svnQueries (c : CodeChecker) (env : Env) (paths : List Str) (outputDir : Str)
    (n : Nat) (st st1 : EnumState) (filePath : Str) (afterTime : Time)
    (hfilter : c.svnFilterAfter = some afterTime)
    (h : enumFile c env paths outputDir n st filePath = .ok st1) :
    ∃ rules, matchingRules c env filePath = .ok rules
      ∧ st1.svnQueries = st.svnQueries ++ (if rules = [] then [] else [filePath]) := by
  unfold enumFile at h
  unfold matchingRules
  rw [getApplicableRules_eq] at h
  simp only at h ⊢
  generalize c.rules.filter (fun r => r.Enabled && matchExtension env.unicodeToLower filePath r) = byExt at h ⊢
  by_cases h0 : byExt.length = 0
  · have hnil : byExt = [] := List.length_eq_zero.1 h0
    subst hnil
    simp only [List.length_nil, if_true, Except.ok.injEq] at h
    subst h
    refine ⟨[], by simp, by simp⟩
  · have hne : byExt ≠ [] := fun hnil => h0 (by simp [hnil])
    simp only [h0, if_false] at h
    by_cases hk : byExt.any (fun r => decide (r.Keywords ≠ [])) = true
    · simp only [hk, if_true] at h ⊢
      cases hread : env.readFile filePath with
      | error e => rw [hread] at h; cases h
      | ok content =>
        rw [hread] at h
        simp only [filterRulesByContent_eq] at h
        refine ⟨_, rfl, ?_⟩
        by_cases h1 : (byExt.filter (fun r => matchKeywords content r)).length = 0
        · have hnil : byExt.filter (fun r => matchKeywords content r) = [] :=
            List.length_eq_zero.1 h1
          simp only [h1, if_true, Except.ok.injEq] at h
          subst h
          simp [hnil]
        · have hne1 : byExt.filter (fun r => matchKeywords content r) ≠ [] :=
            fun hnil => h1 (by simp [hnil])
          simp only [h1, if_false, Except.ok.injEq] at h
          subst h
          rw [scheduleFile_svnQueries c env paths outputDir n st filePath _ afterTime hfilter]
          simp [hne1]
    · have hk1 : byExt.any (fun r => decide (r.Keywords ≠ [])) = false := by simpa using hk
      simp only [hk1, Bool.false_eq_true, if_false, Except.ok.injEq] at h ⊢
      subst h
      refine ⟨byExt, rfl, ?_⟩
      rw [scheduleFile_svnQueries c env paths outputDir n st filePath _ afterTime hfilter]
      simp [hne]

theorem enumFiles_svnQueries_count (c : CodeChecker) (env : Env) (paths : List Str)
    (outputDir : Str) (n : Nat) (afterTime : Time)
    (hfilter : c.svnFilterAfter = some afterTime) (filePath : Str) (rules : List Rule)
    (hrules : matchingRules c env filePath = .ok rules) (files : List Str) :
    ∀ (st st1 : EnumState), enumFiles c env paths outputDir n files st = .ok st1 →
      st1.svnQueries.count filePath
        = st.svnQueries.count filePath + (if rules = [] then 0 else files.count filePath) := by
  induction files with
  | nil =>
    intro st st1 h
    simp only [enumFiles, Except.ok.injEq] at h
    subst h
    simp
  | cons g rest ih =>
    intro st st1 h
    rw [enumFiles] at h
    cases hg : enumFile c env paths outputDir n st g with
    | error e => rw [hg] at h; cases h
    | ok st2 =>
      rw [hg] at h
      simp only at h
      obtain ⟨rs, hrs, hq⟩ := enumFile_svnQueries c env paths outputDir n st st2 g afterTime
        hfilter hg
      rw [ih st2 st1 h, hq, List.count_append, List.count_cons]
      by_cases hgf : g = filePath
      · subst hgf
        rw [hrules] at hrs
        injection hrs with hrs
        subst hrs
        by_cases hr : rules = []
        · simp [hr]
        · simp [hr]; omega
      · have hne : (g == filePath) = false := by simpa using hgf
        by_cases hr : rs = []
        · simp [hr, hne]
        · simp only [hr, if_false, List.count_cons, hne, List.count_nil]
          simp

theorem candidatePairs_mem (c : CodeChecker) (env : Env) (files : List Str) :
    ∀ (pairs : List checkTask), candidatePairs c env files = .ok pairs →
      ∀ p ∈ pairs, ∃ rules, candidateRules c env p.filePath = .ok rules ∧ p.rule ∈ rules := by
  induction files with
  | nil =>
    intro pairs h p hp
    simp only [candidatePairs, Except.ok.injEq] at h
    subst h
    simp at hp
  | cons f rest ih =>
    intro pairs h p hp
    rw [candidatePairs] at h
    cases h1 : candidateRules c env f with
    | error e => rw [h1] at h; cases h
    | ok rs =>
      rw [h1] at h
      simp only at h
      cases h2 : candidatePairs c env rest with
      | error e => rw [h2] at h; cases h
      | ok ps =>
        rw [h2] at h
        simp only [Except.ok.injEq] at h
        subst h
        rcases List.mem_append.1 hp with h3 | h3
        · simp only [List.mem_map] at h3
          obtain ⟨r, hr, hp1⟩ := h3
          subst hp1
          exact ⟨rs, h1, hr⟩
        · exact ih ps h2 p h3

theorem candidateRules_not_recent (c : CodeChecker) (env : Env) (filePath : Str)
    (afterTime : Time) (hfilter : c.svnFilterAfter = some afterTime)
    (hno : HasCommitsAfterSafe env filePath afterTime = false) (rules : List Rule)
    (h : candidateRules c env filePath = .ok rules) : rules = [] := by
  unfold candidateRules at h
  simp only [hfilter, hno, Bool.false_eq_true, ↓reduceIte] at h
  by_cases hk : (c.rules.filter (fun r => r.Enabled && matchExtension env.unicodeToLower filePath r)).any
      (fun r => decide (r.Keywords ≠ [])) = true
  · simp only [hk, ↓reduceIte] at h
    cases hread : env.readFile filePath with
    | error e => rw [hread] at h; cases h
    | ok content =>
      rw [hread] at h
      simp only [Except.ok.injEq] at h
      exact h.symm
  · simp only [hk, Bool.false_eq_true, ↓reduceIte, Except.ok.injEq] at h
    exact h.symm

/-! ## Lemmas on the sink and the collection loop -/

theorem addPath_subset (paths : List Str) (path : Str) : paths ⊆ addPath paths path := by
  unfold addPath
  split_ifs
  · exact fun _ h => h
  · exact List.subset_append_left _ _

theorem addPath_foldl_subset (news paths : List Str) : paths ⊆ news.foldl addPath paths := by
  induction news generalizing paths with
  | nil => exact fun _ h => h
  | cons p ps ih =>
    simp only [List.foldl_cons]
    exact fun x hx => ih _ (addPath_subset paths p hx)

theorem addResultLoop_paths_subset (env : Env) (result : Result) (rules : List Str) :
    ∀ st : SinkState, st.paths ⊆ (addResultLoop env result rules st).1.paths := by
  induction rules with
  | nil => intro st; exact fun _ h => h
  | cons r rs ih =>
    intro st
    rw [addResultLoop]
    simp only
    cases env.mkdirAll (filepathJoin st.f.outputDir (replaceSpecial r)) with
    | some e => exact fun _ h => h
    | none =>
      simp only
      have h1 := addPath_foldl_subset
        (pathAncestors (filepathJoin st.f.outputDir (replaceSpecial r))) st.paths
      split
      · exact h1
      · split
        · exact fun x hx => addPath_subset _ _ (h1 hx)
        · exact fun x hx => ih _ (addPath_subset _ _ (h1 hx))

theorem AddResult_paths_subset (env : Env) (st : SinkState) (result : Result) :
    st.paths ⊆ (AddResult env st result).1.paths := by
  unfold AddResult
  split_ifs
  · exact fun _ h => h
  · exact fun _ h => h
  · exact addResultLoop_paths_subset env result _ st

theorem sinkAfter_paths_subset (env : Env) (results : List Result) :
    ∀ st : SinkState, st.paths ⊆ (sinkAfter env st results).paths := by
  induction results with
  | nil => intro st; exact fun _ h => h
  | cons r rs ih =>
    intro st
    rw [sinkAfter]
    exact fun x hx => ih _ (AddResult_paths_subset env st r hx)

theorem collectResults_until_failure (env : Env) (failed : checkResult) (e : Str)
    (post : List checkResult) (hfail : failed.err = some e) (pre : List checkResult) :
    ∀ st : CollectState,
      (∀ r ∈ pre, r.err = none) →
      (∀ done r rest, pre = done ++ r :: rest →
        (AddResult env (sinkAfter env st.sink (done.map (fun o => o.result))) r.result).2
          = .ok ()) →
      (collectResults env (pre ++ failed :: post) st).2
          = .error ("检查文件 ".toList ++ failed.task.filePath ++ " 规则 ".toList
              ++ failed.task.rule.Name ++ " 失败: ".toList ++ e)
      ∧ (collectResults env (pre ++ failed :: post) st).1.added
          = st.added ++ pre.map (fun o => o.result)
      ∧ (collectResults env (pre ++ failed :: post) st).1.sink
          = sinkAfter env st.sink (pre.map (fun o => o.result)) := by
  induction pre with
  | nil =>
    intro st _ _
    simp [collectResults, hfail, sinkAfter]
  | cons r rs ih =>
    intro st hpre hsink
    have hr : r.err = none := hpre r (by simp)
    have hadd := hsink [] r rs rfl
    simp only [List.map_nil, sinkAfter] at hadd
    simp only [List.cons_append]
    rw [collectResults]
    simp only [hr]
    cases hres : AddResult env st.sink r.result with
    | mk sink1 res =>
      rw [hres] at hadd
      simp only at hadd
      subst hadd
      simp only
      have hsink1 : sink1 = (AddResult env st.sink r.result).1 := by rw [hres]
      have := ih
        { completed := st.completed + 1,
          checkedFiles :=
            if r.task.filePath ∈ st.checkedFiles then st.checkedFiles
            else st.checkedFiles ++ [r.task.filePath],
          sink := sink1, added := st.added ++ [r.result] }
        (fun r1 h1 => hpre r1 (by simp [h1]))
        (by
          intro done r1 rest hdec
          have := hsink (r :: done) r1 rest (by simp [hdec])
          simpa [sinkAfter, hsink1] using this)
      refine ⟨this.1, ?_, ?_⟩
      · rw [this.2.1]; simp
      · rw [this.2.2]; simp [sinkAfter, hsink1]

theorem collectResults_ok (env : Env) (outcomes : List checkResult) :
    ∀ st st1 : CollectState, collectResults env outcomes st = (st1, .ok ()) →
      (∀ o ∈ outcomes, o.err = none)
      ∧ st1.added = st.added ++ outcomes.map (fun o => o.result) := by
  induction outcomes with
  | nil =>
    intro st st1 h
    simp only [collectResults, Prod.mk.injEq, and_true] at h
    subst h
    simp
  | cons r rs ih =>
    intro st st1 h
    rw [collectResults] at h
    simp only at h
    cases hr : r.err with
    | some e => rw [hr] at h; simp at h
    | none =>
      rw [hr] at h
      simp only at h
      cases hres : AddResult env st.sink r.result with
      | mk sink1 res =>
        rw [hres] at h
        cases res with
        | error e => simp at h
        | ok u =>
          simp only at h
          obtain ⟨h1, h2⟩ := ih _ st1 h
          refine ⟨?_, ?_⟩
          · intro o ho
            rcases List.mem_cons.1 ho with h3 | h3
            · rw [h3]; exact hr
            · exact h1 o h3
          · rw [h2]; simp

/-! ## Lemmas on the worker pool -/

theorem checkFileWithRule_shape (c : CodeChecker) (readFile : Str → Except Str Str)
    (filePath : Str) (rule : Rule) :
    (∃ e, (checkFileWithRule c readFile filePath rule).2 = .error e)
    ∨ ∃ text, (checkFileWithRule c readFile filePath rule).2
        = .ok [{ File := filePath, Result := text, AppliedRules := [rule.Name] }] := by
  unfold checkFileWithRule
  cases readFile filePath with
  | error e => exact Or.inl ⟨_, rfl⟩
  | ok content =>
    simp only
    generalize checkChunks c rule (splitCodeContent c.maxTextLength content).length 0
      (splitCodeContent c.maxTextLength content) [] [] = r
    obtain ⟨log, res⟩ := r
    cases res with
    | error e => exact Or.inl ⟨_, rfl⟩
    | ok texts => exact Or.inr ⟨_, rfl⟩

theorem workerOutcome_spec (c : CodeChecker) (env : Env) (task : checkTask) :
    ∃ r, workerOutcome c env task = some r ∧ r.task = task
      ∧ (r.err = none →
          r.result.File = task.filePath ∧ r.result.AppliedRules = [task.rule.Name]) := by
  unfold workerOutcome
  rcases checkFileWithRule_shape c env.readFile task.filePath task.rule with ⟨e, h⟩ | ⟨text, h⟩
  · rw [h]
    exact ⟨_, rfl, rfl, fun h1 => by simp at h1⟩
  · rw [h]
    exact ⟨_, rfl, rfl, fun _ => ⟨rfl, rfl⟩⟩

theorem filterMap_workerOutcome (c : CodeChecker) (env : Env) (tasks : List checkTask) :
    (tasks.filterMap (workerOutcome c env)).map (fun o => o.task) = tasks
    ∧ ∀ o ∈ tasks.filterMap (workerOutcome c env), o.err = none →
        o.result.File = o.task.filePath ∧ o.result.AppliedRules = [o.task.rule.Name] := by
  induction tasks with
  | nil => simp
  | cons t ts ih =>
    obtain ⟨r, hr, htask, hkey⟩ := workerOutcome_spec c env t
    rw [List.filterMap_cons_some hr]
    refine ⟨by simp [htask, ih.1], ?_⟩
    intro o ho
    rcases List.mem_cons.1 ho with h | h
    · subst h
      rw [htask]
      exact hkey
    · exact ih.2 o h

theorem checkDirectory_success (c : CodeChecker) (env : Env) (paths : List Str)
    (directory outputDir : Str)
    (h : (CheckDirectory c env paths directory outputDir).err = none) :
    ∃ files st cs, env.walk directory = .ok files
      ∧ enumerate c env paths outputDir files = .ok st
      ∧ collectResults env (poolOutcomes c env st.tasks)
          { completed := 0, checkedFiles := [],
            sink := { f := NewMarkdownFormatter outputDir c.svnLogLimit c.svnPriorityAuthors,
                      paths := paths },
            added := [] } = (cs, .ok ())
      ∧ (CheckDirectory c env paths directory outputDir).tasks = st.tasks
      ∧ (CheckDirectory c env paths directory outputDir).added = cs.added := by
  cases hw : env.walk directory with
  | error e =>
    unfold CheckDirectory at h
    rw [hw] at h
    simp at h
  | ok files =>
    cases he : enumerate c env paths outputDir files with
    | error e =>
      unfold CheckDirectory at h
      rw [hw] at h
      simp only at h
      rw [he] at h
      simp at h
    | ok st =>
      cases hcol : collectResults env (poolOutcomes c env st.tasks)
        { completed := 0, checkedFiles := [],
          sink := { f := NewMarkdownFormatter outputDir c.svnLogLimit c.svnPriorityAuthors,
                    paths := paths },
          added := [] } with
      | mk cs res =>
        cases res with
        | error e =>
          unfold CheckDirectory at h
          rw [hw] at h
          simp only at h
          rw [he] at h
          simp only at h
          rw [hcol] at h
          simp at h
        | ok u =>
          have hrun : CheckDirectory c env paths directory outputDir
              = { tasks := st.tasks, added := cs.added, paths := cs.sink.paths,
                  err := none } := by
            unfold CheckDirectory
            rw [hw]
            simp only
            rw [he]
            simp only
            rw [hcol]
          exact ⟨files, st, cs, rfl, he, hcol, by rw [hrun], by rw [hrun]⟩

/-! ## Lemmas on the lines of the chunks -/

theorem stringsSplit_cons_ne (sep c : Char) (cs : Str) (h : c ≠ sep) :
    ∃ l ls, stringsSplit sep cs = l :: ls ∧ stringsSplit sep (c :: cs) = (c :: l) :: ls := by
  cases hs : stringsSplit sep cs with
  | nil => exact absurd hs (stringsSplit_ne_nil sep cs)
  | cons l ls =>
    refine ⟨l, ls, rfl, ?_⟩
    simp [stringsSplit, h, hs]

theorem stringsSplit_of_not_mem (sep : Char) (l : Str) (h : sep ∉ l) :
    stringsSplit sep l = [l] := by
  induction l with
  | nil => rfl
  | cons c cs ih =>
    have hc : c ≠ sep := fun hc => h (by simp [hc])
    have hcs : sep ∉ cs := fun hm => h (by simp [hm])
    simp [stringsSplit, hc, ih hcs]

theorem stringsSplit_append_sep (sep : Char) (a b : Str) :
    stringsSplit sep (a ++ sep :: b) = stringsSplit sep a ++ stringsSplit sep b := by
  induction a with
  | nil => simp [stringsSplit]
  | cons c cs ih =>
    by_cases hc : c = sep
    · simp [stringsSplit, hc, ih]
    · obtain ⟨l, ls, h1, h2⟩ := stringsSplit_cons_ne sep c cs hc
      obtain ⟨l1, ls1, h3, h4⟩ := stringsSplit_cons_ne sep c (cs ++ sep :: b) hc
      rw [ih, h1] at h3
      simp only [List.cons_append, List.cons.injEq] at h3
      rw [List.cons_append, h4, h2, ← h3.1, ← h3.2]
      rfl

theorem stringsJoin_cons_cons (sep c : Char) (l : Str) (ls : List Str) :
    stringsJoin sep ((c :: l) :: ls) = c :: stringsJoin sep (l :: ls) := by
  cases ls <;> simp [stringsJoin]

theorem stringsJoin_split (sep : Char) (s : Str) :
    stringsJoin sep (stringsSplit sep s) = s := by
  induction s with
  | nil => rfl
  | cons c cs ih =>
    by_cases hc : c = sep
    · cases hs : stringsSplit sep cs with
      | nil => exact absurd hs (stringsSplit_ne_nil sep cs)
      | cons l ls =>
        rw [hs] at ih
        simp [stringsSplit, hc, hs, stringsJoin, ih]
    · obtain ⟨l, ls, h1, h2⟩ := stringsSplit_cons_ne sep c cs hc
      rw [h2, stringsJoin_cons_cons, ← h1, ih]

theorem stringsJoin_append (sep : Char) (xs ys : List Str) (hx : xs ≠ []) (hy : ys ≠ []) :
    stringsJoin sep (xs ++ ys) = stringsJoin sep xs ++ sep :: stringsJoin sep ys := by
  induction xs with
  | nil => exact absurd rfl hx
  | cons x xs ih =>
    cases xs with
    | nil =>
      cases ys with
      | nil => exact absurd rfl hy
      | cons y ys => simp [stringsJoin]
    | cons x1 xs =>
      have := ih (by simp)
      simp only [List.cons_append] at this ⊢
      simp [stringsJoin, this]

theorem flatMap_split_ne_nil (sep : Char) (x : Str) (xs : List Str) :
    (x :: xs).flatMap (stringsSplit sep) ≠ [] := by
  intro h
  simp only [List.flatMap_cons, List.append_eq_nil] at h
  exact stringsSplit_ne_nil sep x h.1

theorem stringsJoin_flatMap_split (sep : Char) (xs : List Str) :
    stringsJoin sep (xs.flatMap (stringsSplit sep)) = stringsJoin sep xs := by
  induction xs with
  | nil => rfl
  | cons x xs ih =>
    cases xs with
    | nil => simp [stringsJoin_split, stringsJoin]
    | cons y ys =>
      rw [List.flatMap_cons,
        stringsJoin_append sep _ _ (stringsSplit_ne_nil sep x) (flatMap_split_ne_nil sep y ys),
        ih, stringsJoin_split]
      simp [stringsJoin]

theorem splitStep_lines (m : Int) (st : SplitState) (line : Str) (hline : '\n' ∉ line) :
    ∃ added : List Str,
      ((splitStep m st line).chunks.flatMap (stringsSplit '\n')
          ++ (if (splitStep m st line).currentChunk = [] then []
              else stringsSplit '\n' (splitStep m st line).currentChunk))
        = (st.chunks.flatMap (stringsSplit '\n')
          ++ (if st.currentChunk = [] then [] else stringsSplit '\n' st.currentChunk))
          ++ added
      ∧ (added = [line] ∨ (added = [] ∧ line = [])) := by
  have hsplit : stringsSplit '\n' line = [line] := stringsSplit_of_not_mem '\n' line hline
  unfold splitStep
  by_cases hc : (len st.currentChunk : Int) + (len line : Int) + 1 > m ∧ len st.currentChunk > 0
  · have hne : st.currentChunk ≠ [] := (len_pos_iff _).1 hc.2
    simp only [hc, and_self, if_true, len_nil, gt_iff_lt, lt_self_iff_false, if_false,
      List.nil_append]
    by_cases hl : line = []
    · refine ⟨[], ?_, Or.inr ⟨rfl, hl⟩⟩
      simp [hl, hne]
    · refine ⟨[line], ?_, Or.inl rfl⟩
      simp [hl, hne, hsplit]
  · simp only [hc, if_false]
    by_cases hp : len st.currentChunk > 0
    · have hne : st.currentChunk ≠ [] := (len_pos_iff _).1 hp
      refine ⟨[line], ?_, Or.inl rfl⟩
      simp only [hp, if_true, hne, if_false]
      have h1 : st.currentChunk ++ ['\n'] ++ line ≠ [] := by simp
      simp only [h1, if_false]
      have h2 : st.currentChunk ++ ['\n'] ++ line = st.currentChunk ++ '\n' :: line := by simp
      rw [h2, stringsSplit_append_sep, hsplit]
      simp
    · have h0 : st.currentChunk = [] := (len_eq_zero_iff _).1 (by omega)
      simp only [h0, len_nil, gt_iff_lt, lt_self_iff_false, if_false, List.nil_append, if_true,
        List.append_nil]
      by_cases hl : line = []
      · exact ⟨[], by simp [hl], Or.inr ⟨rfl, hl⟩⟩
      · exact ⟨[line], by simp [hl, hsplit], Or.inl rfl⟩

theorem splitLoop_lines (m : Int) (lines : List Str) (hlines : ∀ l ∈ lines, '\n' ∉ l) :
    ∀ st : SplitState, ∃ added : List Str,
      ((splitLoop m lines st).chunks.flatMap (stringsSplit '\n')
          ++ (if (splitLoop m lines st).currentChunk = [] then []
              else stringsSplit '\n' (splitLoop m lines st).currentChunk))
        = (st.chunks.flatMap (stringsSplit '\n')
          ++ (if st.currentChunk = [] then [] else stringsSplit '\n' st.currentChunk))
          ++ added
      ∧ nonEmpty added = nonEmpty lines
      ∧ ((∀ l ∈ lines, l ≠ []) → added = lines) := by
  induction lines with
  | nil => intro st; exact ⟨[], by simp [splitLoop], rfl, fun _ => rfl⟩
  | cons l ls ih =>
    intro st
    obtain ⟨a1, h1, hcase⟩ := splitStep_lines m st l (hlines l (by simp))
    obtain ⟨a2, h2, hne, hall⟩ := ih (fun x hx => hlines x (by simp [hx])) (splitStep m st l)
    refine ⟨a1 ++ a2, ?_, ?_, ?_⟩
    · simp only [splitLoop, List.foldl_cons] at h2 ⊢
      rw [h2, h1, List.append_assoc]
    · rcases hcase with h | ⟨h, hl⟩
      · simp [nonEmpty, h, List.filter_cons] at hne ⊢
        rw [hne]
      · simp [nonEmpty, h, hl] at hne ⊢
        exact hne
    · intro hall1
      rcases hcase with h | ⟨_, hl⟩
      · rw [h, hall (fun x hx => hall1 x (by simp [hx]))]
        rfl
      · exact absurd hl (hall1 l (by simp))

theorem splitCodeContent_lines (m : Int) (content : Str) :
    ∃ added : List Str,
      (splitCodeContent m content).flatMap (stringsSplit '\n') = added
      ∧ nonEmpty added = nonEmpty (stringsSplit '\n' content)
      ∧ ((∀ l ∈ stringsSplit '\n' content, l ≠ []) → added = stringsSplit '\n' content) := by
  unfold splitCodeContent
  by_cases hb : (len content : Int) ≤ m
  · simp only [hb, if_true]
    exact ⟨_, rfl, by simp, fun _ => by simp⟩
  · simp only [hb, if_false]
    obtain ⟨added, h1, h2, h3⟩ := splitLoop_lines m (stringsSplit '\n' content)
      (fun l hl => sep_not_mem_of_mem_stringsSplit '\n' content l hl)
      { chunks := [], currentChunk := [], lineCount := 0 }
    simp only [List.flatMap_nil, if_true, List.append_nil, List.nil_append] at h1
    refine ⟨added, ?_, h2, h3⟩
    rw [← h1]
    generalize splitLoop m (stringsSplit '\n' content)
      { chunks := [], currentChunk := [], lineCount := 0 } = fin
    by_cases hp : len fin.currentChunk > 0
    · have hne : fin.currentChunk ≠ [] := (len_pos_iff _).1 hp
      simp [hp, hne, List.flatMap_append]
    · have h0 : fin.currentChunk = [] := (len_eq_zero_iff _).1 (by omega)
      simp [h0, len_nil]

theorem stringsSplit_tail_ne_nil (sep : Char) (cs : Str) :
    cs.getLast? ≠ some sep → (∀ a b, cs ≠ a ++ sep :: sep :: b) →
      ∀ l ∈ (stringsSplit sep cs).tail, l ≠ [] := by
  induction cs with
  | nil => intro _ _ l hl; simp [stringsSplit] at hl
  | cons d ds ih =>
    intro hlast hdbl l hl
    have hdbl1 : ∀ a b, ds ≠ a ++ sep :: sep :: b := by
      intro a b h
      exact hdbl (d :: a) b (by simp [h])
    have hlast1 : ds.getLast? ≠ some sep := by
      cases ds with
      | nil => simp
      | cons e es => simpa [List.getLast?_cons_cons] using hlast
    by_cases hd : d = sep
    · subst hd
      simp only [stringsSplit, if_true, List.tail_cons] at hl
      cases ds with
      | nil => simp at hlast
      | cons e es =>
        have he : e ≠ d := by
          intro h
          exact hdbl [] es (by simp [h])
        obtain ⟨l0, ls, h1, h2⟩ := stringsSplit_cons_ne d e es he
        rw [h2] at hl
        rcases List.mem_cons.1 hl with h3 | h3
        · rw [h3]; simp
        · apply ih hlast1 hdbl1 l
          rw [h2]
          exact h3
    · obtain ⟨l0, ls, h1, h2⟩ := stringsSplit_cons_ne sep d ds hd
      rw [h2] at hl
      apply ih hlast1 hdbl1 l
      rw [h1]
      exact hl

theorem stringsSplit_no_blank (sep : Char) (cs : Str) (hfirst : cs.head? ≠ some sep)
    (hlast : cs.getLast? ≠ some sep) (hdbl : ∀ a b, cs ≠ a ++ sep :: sep :: b) :
    cs = [] ∨ ∀ l ∈ stringsSplit sep cs, l ≠ [] := by
  cases cs with
  | nil => exact Or.inl rfl
  | cons c cs =>
    right
    have hc : c ≠ sep := by simpa using hfirst
    have htail := stringsSplit_tail_ne_nil sep (c :: cs) hlast hdbl
    obtain ⟨l0, ls, h1, h2⟩ := stringsSplit_cons_ne sep c cs hc
    rw [h2] at htail ⊢
    intro l hl
    rcases List.mem_cons.1 hl with h3 | h3
    · rw [h3]; simp
    · exact htail l h3

theorem splitCodeContent_nil_content (m : Int) :
    stringsJoin '\n' (splitCodeContent m []) = [] := by
  unfold splitCodeContent
  by_cases h : (len ([] : Str) : Int) ≤ m
  · simp [h, stringsJoin]
  · have h1 : ¬ (0 : Int) ≤ m := by simpa [len_nil] using h
    simp [h1, splitLoop, stringsSplit, splitStep, len_nil, stringsJoin]

/-! ## Lemmas on the worker pool -/

theorem runPool_append (s : PoolState) (a b : List PoolAction) :
    runPool s (a ++ b) = (runPool s a).bind (fun s1 => runPool s1 b) := by
  induction a generalizing s with
  | nil => rfl
  | cons x xs ih =>
    simp only [List.cons_append, runPool]
    cases poolStep s x with
    | none => rfl
    | some s1 => exact ih s1

theorem inFlight_set_working (ws : List Worker) (i : Nat) (task : checkTask)
    (h : ws[i]? = some .waiting) :
    (inFlight (ws.set i (.working task))).Perm (task :: inFlight ws) := by
  induction ws generalizing i with
  | nil => simp at h
  | cons w rest ih =>
    cases i with
    | zero =>
      simp only [List.getElem?_cons_zero, Option.some.injEq] at h
      subst h
      simp [inFlight]
    | succ j =>
      simp only [List.getElem?_cons_succ] at h
      have := ih j h
      cases w with
      | waiting => simpa [inFlight] using this
      | returned => simpa [inFlight] using this
      | working t =>
        simp only [inFlight, List.set_cons_succ, List.filterMap_cons] at this ⊢
        exact (List.Perm.cons t this).trans (List.Perm.swap task t _)

theorem inFlight_set_waiting (ws : List Worker) (i : Nat) (task : checkTask)
    (h : ws[i]? = some (.working task)) :
    (inFlight ws).Perm (task :: inFlight (ws.set i .waiting)) := by
  induction ws generalizing i with
  | nil => simp at h
  | cons w rest ih =>
    cases i with
    | zero =>
      simp only [List.getElem?_cons_zero, Option.some.injEq] at h
      subst h
      simp [inFlight]
    | succ j =>
      simp only [List.getElem?_cons_succ] at h
      have := ih j h
      cases w with
      | waiting => simpa [inFlight] using this
      | returned => simpa [inFlight] using this
      | working t =>
        simp only [inFlight, List.set_cons_succ, List.filterMap_cons] at this ⊢
        exact (List.Perm.cons t this).trans (List.Perm.swap task t _)

theorem inFlight_set_returned (ws : List Worker) (i : Nat) (h : ws[i]? = some .waiting) :
    inFlight (ws.set i .returned) = inFlight ws := by
  induction ws generalizing i with
  | nil => simp at h
  | cons w rest ih =>
    cases i with
    | zero =>
      simp only [List.getElem?_cons_zero, Option.some.injEq] at h
      subst h
      simp [inFlight]
    | succ j =>
      simp only [List.getElem?_cons_succ] at h
      have := ih j h
      simp only [inFlight, List.set_cons_succ, List.filterMap_cons] at this ⊢
      rw [this]

theorem inFlight_all_returned (ws : List Worker)
    (h : ws.all (fun w => w == .returned) = true) : inFlight ws = [] := by
  induction ws with
  | nil => rfl
  | cons w rest ih =>
    simp only [List.all_cons, Bool.and_eq_true, beq_iff_eq] at h
    obtain ⟨h1, h2⟩ := h
    subst h1
    simpa [inFlight] using ih h2

theorem poolStart_inv (workers : Nat) (tasks : List checkTask) :
    PoolInv tasks (poolStart workers tasks) := by
  refine ⟨?_, ?_, ?_⟩
  · have h : inFlight (List.replicate workers Worker.waiting) = [] := by
      induction workers with
      | zero => rfl
      | succ n ih => simp [inFlight, List.replicate_succ]
    simp [poolStart, h]
  · intro h
    simp [poolStart] at h
  · intro h
    simp [poolStart, List.mem_replicate] at h

theorem poolStep_inv (tasks : List checkTask) (s s1 : PoolState) (a : PoolAction)
    (hinv : PoolInv tasks s) (h : poolStep s a = some s1) : PoolInv tasks s1 := by
  obtain ⟨hperm, hclosed, hret⟩ := hinv
  cases a with
  | send =>
    simp only [poolStep] at h
    cases hu : s.unsent with
    | nil => simp [hu] at h
    | cons task rest =>
      simp only [hu, Option.some.injEq] at h
      subst h
      refine ⟨?_, ?_, ?_⟩
      · simp only [hu] at hperm
        simpa [List.append_assoc] using hperm
      · intro hc
        have := hclosed hc
        simp [hu] at this
      · intro hr
        have := hclosed (hret hr).1
        simp [hu] at this
  | close =>
    simp only [poolStep] at h
    by_cases hc : s.unsent = [] ∧ s.closed = false
    · rw [if_pos hc] at h
      simp only [Option.some.injEq] at h
      subst h
      refine ⟨hperm, fun _ => hc.1, ?_⟩
      intro hr
      exact ⟨rfl, (hret hr).2⟩
    · simp [hc] at h
  | take i =>
    simp only [poolStep] at h
    cases hw : s.workers[i]? with
    | none => simp [hw] at h
    | some w =>
      cases w with
      | working t => simp [hw] at h
      | returned => simp [hw] at h
      | waiting =>
        cases hc : s.taskChan with
        | nil => simp [hw, hc] at h
        | cons task rest =>
          simp only [hw, hc, Option.some.injEq] at h
          subst h
          refine ⟨?_, hclosed, ?_⟩
          · simp only [hc] at hperm
            refine List.Perm.trans ?_ hperm
            have hp := inFlight_set_working s.workers i task hw
            simp only [List.append_assoc]
            refine List.Perm.append_left _ ?_
            refine (List.Perm.append_right _ hp).trans ?_
            simp only [List.cons_append]
            exact List.perm_middle.symm
          · intro hr
            simp only at hr
            rcases List.mem_or_eq_of_mem_set hr with hin | heq
            · have := (hret hin).2
              simp [hc] at this
            · cases heq
  | finish i =>
    simp only [poolStep] at h
    cases hw : s.workers[i]? with
    | none => simp [hw] at h
    | some w =>
      cases w with
      | waiting => simp [hw] at h
      | returned => simp [hw] at h
      | working task =>
        simp only [hw, Option.some.injEq] at h
        subst h
        refine ⟨?_, hclosed, ?_⟩
        · refine List.Perm.trans ?_ hperm
          have hp := inFlight_set_waiting s.workers i task hw
          simp only [List.append_assoc]
          refine List.Perm.append_left _ ?_
          simp only [List.singleton_append]
          refine List.Perm.trans ?_ (List.Perm.append_right _ hp.symm)
          simp
        · intro hr
          simp only at hr
          rcases List.mem_or_eq_of_mem_set hr with hin | heq
          · exact hret hin
          · cases heq
  | leave i =>
    simp only [poolStep] at h
    cases hw : s.workers[i]? with
    | none => simp [hw] at h
    | some w =>
      cases w with
      | working t => simp [hw] at h
      | returned => simp [hw] at h
      | waiting =>
        by_cases hc : s.taskChan = [] ∧ s.closed = true
        · simp only [hw] at h
          rw [if_pos hc] at h
          simp only [Option.some.injEq] at h
          subst h
          refine ⟨?_, hclosed, fun _ => ⟨hc.2, hc.1⟩⟩
          simp only [inFlight_set_returned s.workers i hw]
          exact hperm
        · simp [hw, hc] at h

theorem runPool_inv (tasks : List checkTask) (acts : List PoolAction) (s s1 : PoolState)
    (hinv : PoolInv tasks s) (h : runPool s acts = some s1) : PoolInv tasks s1 := by
  induction acts generalizing s with
  | nil =>
    simp only [runPool, Option.some.injEq] at h
    exact h ▸ hinv
  | cons a rest ih =>
    simp only [runPool] at h
    cases hstep : poolStep s a with
    | none => simp [hstep] at h
    | some s2 =>
      simp only [hstep] at h
      exact ih s2 (poolStep_inv tasks s s2 a hinv hstep) h

theorem poolStep_length (s s1 : PoolState) (a : PoolAction) (h : poolStep s a = some s1) :
    s1.workers.length = s.workers.length := by
  cases a with
  | send =>
    simp only [poolStep] at h
    cases hu : s.unsent with
    | nil => simp [hu] at h
    | cons task rest =>
      simp only [hu, Option.some.injEq] at h
      subst h
      rfl
  | close =>
    simp only [poolStep] at h
    split_ifs at h
    simp only [Option.some.injEq] at h
    subst h
    rfl
  | take i =>
    simp only [poolStep] at h
    split at h
    · simp only [Option.some.injEq] at h
      subst h
      simp
    · simp at h
  | finish i =>
    simp only [poolStep] at h
    split at h
    · simp only [Option.some.injEq] at h
      subst h
      simp
    · simp at h
  | leave i =>
    simp only [poolStep] at h
    split at h
    · split_ifs at h
      simp only [Option.some.injEq] at h
      subst h
      simp
    · simp at h

theorem runPool_length (acts : List PoolAction) (s s1 : PoolState)
    (h : runPool s acts = some s1) : s1.workers.length = s.workers.length := by
  induction acts generalizing s with
  | nil =>
    simp only [runPool, Option.some.injEq] at h
    rw [h]
  | cons a rest ih =>
    simp only [runPool] at h
    cases hstep : poolStep s a with
    | none => simp [hstep] at h
    | some s2 =>
      simp only [hstep] at h
      rw [ih s2 h, poolStep_length s s2 a hstep]

/-- With at least one worker, every run of the pool to the return of all its
workers finishes each task of `tasks` as many times as it is in `tasks`. -/
theorem poolRuns_perm (workers : Nat) (tasks order : List checkTask) (hw : 1 ≤ workers)
    (h : PoolRuns workers tasks order) : order.Perm tasks := by
  obtain ⟨acts, h⟩ := h
  unfold poolOrder at h
  cases hrun : runPool (poolStart workers tasks) acts with
  | none => simp [hrun] at h
  | some s =>
    simp only [hrun] at h
    by_cases hall : s.workers.all (fun w => w == .returned) = true
    · simp only [hall, ↓reduceIte, Option.some.injEq] at h
      obtain ⟨hperm, hclosed, hret⟩ := runPool_inv tasks acts _ s (poolStart_inv workers tasks) hrun
      have hlen : s.workers.length = workers := by
        rw [runPool_length acts _ s hrun]
        simp [poolStart]
      have hmem : Worker.returned ∈ s.workers := by
        cases hws : s.workers with
        | nil => rw [hws] at hlen; simp at hlen; omega
        | cons w rest =>
          rw [hws] at hall
          simp only [List.all_cons, Bool.and_eq_true, beq_iff_eq] at hall
          rw [hall.1]
          exact List.mem_cons_self _ _
      obtain ⟨hc, hchan⟩ := hret hmem
      rw [inFlight_all_returned s.workers hall, hchan, hclosed hc, h] at hperm
      simpa using hperm
    · simp [hall] at h

/-- Without a worker no run of the pool finishes a task. -/
theorem poolRuns_no_worker (tasks order : List checkTask) (h : PoolRuns 0 tasks order) :
    order = [] := by
  obtain ⟨acts, h⟩ := h
  have key : ∀ (acts : List PoolAction) (s s1 : PoolState), s.workers = [] → s.finished = [] →
      runPool s acts = some s1 → s1.finished = [] := by
    intro acts
    induction acts with
    | nil =>
      intro s s1 _ hf h
      simp only [runPool, Option.some.injEq] at h
      rw [← h, hf]
    | cons a rest ih =>
      intro s s1 hws hf h
      simp only [runPool] at h
      cases hstep : poolStep s a with
      | none => simp [hstep] at h
      | some s2 =>
        simp only [hstep] at h
        have h2 : s2.workers = [] ∧ s2.finished = [] := by
          cases a with
          | send =>
            simp only [poolStep] at hstep
            split at hstep
            · simp at hstep
            · simp only [Option.some.injEq] at hstep
              subst hstep
              exact ⟨hws, hf⟩
          | close =>
            simp only [poolStep] at hstep
            split_ifs at hstep
            simp only [Option.some.injEq] at hstep
            subst hstep
            exact ⟨hws, hf⟩
          | take i => simp [poolStep, hws] at hstep
          | finish i => simp [poolStep, hws] at hstep
          | leave i => simp [poolStep, hws] at hstep
        exact ih s2 s1 h2.1 h2.2 h
  unfold poolOrder at h
  cases hrun : runPool (poolStart 0 tasks) acts with
  | none => simp [hrun] at h
  | some s =>
    simp only [hrun] at h
    split_ifs at h
    simp only [Option.some.injEq] at h
    rw [← h]
    exact key acts _ s rfl rfl hrun

theorem runPool_handle (ts fin : List checkTask) (ws : List Worker) :
    runPool { unsent := ts, closed := false, taskChan := [],
              workers := Worker.waiting :: ws, finished := fin }
        (ts.flatMap (fun _ => [PoolAction.send, PoolAction.take 0, PoolAction.finish 0]))
      = some { unsent := [], closed := false, taskChan := [],
               workers := Worker.waiting :: ws, finished := fin ++ ts } := by
  induction ts generalizing fin with
  | nil => simp [runPool]
  | cons t rest ih =>
    have key : ∀ acts : List PoolAction,
        runPool { unsent := t :: rest, closed := false, taskChan := [],
                  workers := Worker.waiting :: ws, finished := fin }
            (PoolAction.send :: PoolAction.take 0 :: PoolAction.finish 0 :: acts)
          = runPool { unsent := rest, closed := false, taskChan := [],
                      workers := Worker.waiting :: ws, finished := fin ++ [t] } acts := by
      intro acts
      simp [runPool, poolStep]
    rw [List.flatMap_cons]
    simp only [List.cons_append, List.nil_append]
    rw [key, ih (fin ++ [t])]
    simp

theorem runPool_leave (pre : List Worker) (m : Nat) (fin : List checkTask) :
    runPool { unsent := [], closed := true, taskChan := [],
              workers := pre ++ List.replicate m Worker.waiting, finished := fin }
        ((List.range' pre.length m).map PoolAction.leave)
      = some { unsent := [], closed := true, taskChan := [],
               workers := pre ++ List.replicate m Worker.returned, finished := fin } := by
  induction m generalizing pre with
  | zero => simp [runPool]
  | succ n ih =>
    have hget : (pre ++ List.replicate (n + 1) Worker.waiting)[pre.length]?
        = some Worker.waiting := by
      rw [List.getElem?_append_right (le_refl _)]
      simp [List.replicate_succ]
    have hset : (pre ++ List.replicate (n + 1) Worker.waiting).set pre.length Worker.returned
        = (pre ++ [Worker.returned]) ++ List.replicate n Worker.waiting := by
      simp [List.replicate_succ]
    simp only [List.range'_succ, List.map_cons, runPool, poolStep, hget, and_self, ↓reduceIte,
      hset]
    have := ih (pre ++ [Worker.returned])
    simp only [List.length_append, List.length_singleton] at this
    rw [this]
    simp [List.replicate_succ]

/-- With at least one worker, the order of the queue is one of the orders in
which the pool can finish the tasks. -/
theorem poolRuns_in_order (workers : Nat) (tasks : List checkTask) (hw : 1 ≤ workers) :
    PoolRuns workers tasks tasks := by
  refine ⟨inOrderActs workers tasks, ?_⟩
  obtain ⟨n, rfl⟩ : ∃ n, workers = n + 1 := ⟨workers - 1, by omega⟩
  unfold poolOrder inOrderActs poolStart
  have hclose :
      runPool { unsent := [], closed := false, taskChan := [],
                workers := Worker.waiting :: List.replicate n Worker.waiting,
                finished := tasks }
          [PoolAction.close]
        = some { unsent := [], closed := true, taskChan := [],
                 workers := Worker.waiting :: List.replicate n Worker.waiting,
                 finished := tasks } := by
    simp [runPool, poolStep]
  have hleave := runPool_leave [] (n + 1) tasks
  simp only [List.length_nil, List.nil_append, List.replicate_succ] at hleave
  rw [runPool_append, runPool_append, List.replicate_succ, runPool_handle]
  simp only [Option.some_bind, List.nil_append]
  rw [hclose]
  simp only [Option.some_bind]
  rw [hleave]
  simp

/-! ## Lemma on a failure of the sink -/

/-- When `AddResult` succeeds on the successful outcomes `pre` and fails with
`e` on the successful outcome `r` after them, the collection loop returns at
that call with the error `add result failed: e`, whatever arrives later. -/
theorem collectResults_sink_error (env : Env) (r : checkResult) (e : Str)
    (post : List checkResult) (hr : r.err = none) (pre : List checkResult) :
    ∀ st : CollectState,
      (∀ o ∈ pre, o.err = none) →
      (∀ done o rest, pre = done ++ o :: rest →
        (AddResult env (sinkAfter env st.sink (done.map (fun o => o.result))) o.result).2
          = .ok ()) →
      (AddResult env (sinkAfter env st.sink (pre.map (fun o => o.result))) r.result).2
          = .error e →
      (collectResults env (pre ++ r :: post) st).2
          = .error ("add result failed: ".toList ++ e)
      ∧ (collectResults env (pre ++ r :: post) st).1.added
          = st.added ++ pre.map (fun o => o.result) ++ [r.result] := by
  induction pre with
  | nil =>
    intro st _ _ hfail
    simp only [List.map_nil, sinkAfter] at hfail
    simp only [List.nil_append, List.map_nil, List.append_nil]
    rw [collectResults]
    simp only [hr]
    cases hres : AddResult env st.sink r.result with
    | mk sink1 res =>
      rw [hres] at hfail
      simp only at hfail
      subst hfail
      exact ⟨rfl, rfl⟩
  | cons o os ih =>
    intro st hpre hsink hfail
    have ho : o.err = none := hpre o (by simp)
    have hadd := hsink [] o os rfl
    simp only [List.map_nil, sinkAfter] at hadd
    simp only [List.cons_append]
    rw [collectResults]
    simp only [ho]
    cases hres : AddResult env st.sink o.result with
    | mk sink1 res =>
      rw [hres] at hadd
      simp only at hadd
      subst hadd
      simp only
      have hsink1 : sink1 = (AddResult env st.sink o.result).1 := by rw [hres]
      have := ih
        { completed := st.completed + 1,
          checkedFiles :=
            if o.task.filePath ∈ st.checkedFiles then st.checkedFiles
            else st.checkedFiles ++ [o.task.filePath],
          sink := sink1, added := st.added ++ [o.result] }
        (fun r1 h1 => hpre r1 (by simp [h1]))
        (by
          intro done r1 rest hdec
          have := hsink (o :: done) r1 rest (by simp [hdec])
          simpa [sinkAfter, hsink1] using this)
        (by simpa [sinkAfter, hsink1] using hfail)
      refine ⟨this.1, ?_⟩
      rw [this.2]
      simp

/-! ## Properties of the specification, C1 to C10 -/

/-- C1. Joining the chunks of `splitCodeContent` with a newline does not always
give the content back: with `maxTextLength = 2` the content `"ab\n\ncd"` is
split into `"ab"` and `"cd"`, whose join is `"ab\ncd"`; the empty second line
is dropped. -/
theorem splitCodeContent_drops_empty_line :
    splitCodeContent 2 "ab\n\ncd".toList = ["ab".toList, "cd".toList]
    ∧ stringsSplit '\n' "ab\n\ncd".toList = ["ab".toList, [], "cd".toList]
    ∧ stringsJoin '\n' (splitCodeContent 2 "ab\n\ncd".toList) = "ab\ncd".toList
    ∧ stringsJoin '\n' (splitCodeContent 2 "ab\n\ncd".toList) ≠ "ab\n\ncd".toList := by
  decide

/-- C2. A second run of `CheckDirectory` is not always idle. The directory
holds the one file `src/a[1].lua`; the first run succeeds and writes the report
`out/r/a[1].lua.md`; with that report in place `resultExists` still answers
false for the file, and the second run schedules the same task and passes its
result to `AddResult` again. (For the file `src/a.lua` and its report
`out/r/a.lua.md` the second run schedules nothing.) -/
theorem checkDirectory_second_run_reschedules :
    CheckDirectory (sampleChecker [sampleRule] 4000)
        (sampleEnv ["src/a[1].lua".toList] "x".toList) [] "src".toList "out".toList
      = { tasks := [{ filePath := "src/a[1].lua".toList, rule := sampleRule }],
          added := [{ File := "src/a[1].lua".toList, Result := "finding\n\n".toList,
                      AppliedRules := ["r".toList] }],
          paths := ["out".toList, "out/r".toList, "out/r/a[1].lua.md".toList],
          err := none }
    ∧ resultExists ["out".toList, "out/r".toList, "out/r/a[1].lua.md".toList]
        "src/a[1].lua".toList "r".toList "out".toList = false
    ∧ CheckDirectory (sampleChecker [sampleRule] 4000)
        (sampleEnv ["src/a[1].lua".toList] "x".toList)
        ["out".toList, "out/r".toList, "out/r/a[1].lua.md".toList] "src".toList "out".toList
      = { tasks := [{ filePath := "src/a[1].lua".toList, rule := sampleRule }],
          added := [{ File := "src/a[1].lua".toList, Result := "finding\n\n".toList,
                      AppliedRules := ["r".toList] }],
          paths := ["out".toList, "out/r".toList, "out/r/a[1].lua.md".toList],
          err := none }
    ∧ (CheckDirectory (sampleChecker [sampleRule] 4000)
        (sampleEnv ["src/a.lua".toList] "x".toList)
        ["out".toList, "out/r".toList, "out/r/a.lua.md".toList] "src".toList
        "out".toList).tasks = [] := by
  decide

/-- C3. The task list of the enumeration is the list of the candidate pairs
for which `resultExists` is false, in order (and the enumeration fails exactly
when finding the candidates fails, on a file that cannot be read); no task of a
run has an existing report, and when the workers are handed tasks of the list
only, no outcome is for a pair with an existing report. -/
theorem enumerate_resumption (c : CodeChecker) (env : Env) (paths : List Str)
    (directory outputDir : Str) (files : List Str) :
    (enumerate c env paths outputDir files).map (fun st => st.tasks)
        = (candidatePairs c env files).map (fun pairs =>
            pairs.filter (fun t => !resultExists paths t.filePath t.rule.Name outputDir))
    ∧ (∀ t ∈ (CheckDirectory c env paths directory outputDir).tasks,
        resultExists paths t.filePath t.rule.Name outputDir = false)
    ∧ ((∀ tasks, ∀ t ∈ env.arrival tasks, t ∈ tasks) →
        ∀ st, enumerate c env paths outputDir files = .ok st →
          ∀ r ∈ poolOutcomes c env st.tasks,
            resultExists paths r.task.filePath r.task.rule.Name outputDir = false) := by
  refine ⟨enumerate_tasks c env paths outputDir files, ?_, ?_⟩
  · intro t ht
    rw [checkDirectory_tasks] at ht
    cases hw : env.walk directory with
    | error e => rw [hw] at ht; simp at ht
    | ok fs =>
      rw [hw] at ht
      simp only at ht
      cases he : enumerate c env paths outputDir fs with
      | error e => rw [he] at ht; simp at ht
      | ok st =>
        rw [he] at ht
        exact enumerate_tasks_fresh c env paths outputDir fs st he t ht
  · intro harr st hst r hr
    unfold poolOutcomes at hr
    split_ifs at hr
    · rw [List.mem_filterMap] at hr
      obtain ⟨t, ht, hw⟩ := hr
      rw [workerOutcome_task c env t r hw]
      exact enumerate_tasks_fresh c env paths outputDir files st hst t (harr _ t ht)
    · simp at hr

/-- C3 at a concrete directory: of the files `src/a.lua` and `src/b.lua`, the
first has the report `out/r/[bob]a.lua.md`; the one task is for the second. -/
theorem enumerate_resumption_witness :
    (CheckDirectory (sampleChecker [sampleRule] 4000)
        (sampleEnv ["src/a.lua".toList, "src/b.lua".toList] "x".toList)
        ["out/r/[bob]a.lua.md".toList] "src".toList "out".toList).tasks
      = [{ filePath := "src/b.lua".toList, rule := sampleRule }]
    ∧ ∀ t ∈ (CheckDirectory (sampleChecker [sampleRule] 4000)
        (sampleEnv ["src/a.lua".toList, "src/b.lua".toList] "x".toList)
        ["out/r/[bob]a.lua.md".toList] "src".toList "out".toList).tasks,
        resultExists ["out/r/[bob]a.lua.md".toList] t.filePath t.rule.Name "out".toList = false :=
  ⟨by decide,
   (enumerate_resumption (sampleChecker [sampleRule] 4000)
      (sampleEnv ["src/a.lua".toList, "src/b.lua".toList] "x".toList)
      ["out/r/[bob]a.lua.md".toList] "src".toList "out".toList []).2.1⟩

/-- C4, as the claim states it, fails: with two enabled rules of the same name
`r` the file `src/a.lua` gets two tasks with the same file path and rule
name. -/
theorem checkDirectory_duplicate_task :
    (CheckDirectory
        (sampleChecker [sampleRule, { sampleRule with Description := "again".toList }] 4000)
        (sampleEnv ["src/a.lua".toList] "x".toList) [] "src".toList "out".toList).tasks
      = [{ filePath := "src/a.lua".toList, rule := sampleRule },
         { filePath := "src/a.lua".toList,
           rule := { sampleRule with Description := "again".toList } }]
    ∧ ¬ ((CheckDirectory
        (sampleChecker [sampleRule, { sampleRule with Description := "again".toList }] 4000)
        (sampleEnv ["src/a.lua".toList] "x".toList) [] "src".toList "out".toList).tasks.map
          taskKey).Nodup := by
  decide

/-- C4, amended: when the enabled rules have distinct names and the walk gives
every file once, no two tasks of a run have the same file path and the same rule
name. -/
theorem checkDirectory_tasks_nodup (c : CodeChecker) (env : Env) (paths : List Str)
    (directory outputDir : Str)
    (hnames : ((c.rules.filter (fun r => r.Enabled)).map (fun r => r.Name)).Nodup)
    (hfiles : ∀ files, env.walk directory = .ok files → files.Nodup) :
    ((CheckDirectory c env paths directory outputDir).tasks.map taskKey).Nodup := by
  rw [checkDirectory_tasks]
  cases hw : env.walk directory with
  | error e => simp
  | ok files =>
    simp only
    cases he : enumerate c env paths outputDir files with
    | error e => simp
    | ok st =>
      simp only
      have h1 := enumerate_tasks c env paths outputDir files
      rw [he] at h1
      cases h2 : candidatePairs c env files with
      | error e => rw [h2] at h1; simp [Except.map] at h1
      | ok pairs =>
        rw [h2] at h1
        simp only [Except.map, Except.ok.injEq] at h1
        rw [h1]
        have hk := (candidatePairs_keys c env hnames files (hfiles files hw) pairs h2).1
        exact ((List.filter_sublist _).map taskKey).nodup hk

/-- C4, amended, at a concrete directory: two rules with the names `r` and `s`
and two files give four tasks, no two for the same file and rule name. -/
theorem checkDirectory_tasks_nodup_witness :
    ((CheckDirectory
        (sampleChecker [sampleRule, { sampleRule with Name := "s".toList }] 4000)
        (sampleEnv ["src/a.lua".toList, "src/b.lua".toList] "x".toList) [] "src".toList
        "out".toList).tasks.map taskKey).Nodup
    ∧ (CheckDirectory
        (sampleChecker [sampleRule, { sampleRule with Name := "s".toList }] 4000)
        (sampleEnv ["src/a.lua".toList, "src/b.lua".toList] "x".toList) [] "src".toList
        "out".toList).tasks.length = 4 :=
  ⟨checkDirectory_tasks_nodup
      (sampleChecker [sampleRule, { sampleRule with Name := "s".toList }] 4000)
      (sampleEnv ["src/a.lua".toList, "src/b.lua".toList] "x".toList) [] "src".toList
      "out".toList (by decide)
      (fun files h => by
        have h1 : files = ["src/a.lua".toList, "src/b.lua".toList] := by
          simp only [sampleEnv, Except.ok.injEq] at h
          exact h.symm
        rw [h1]
        decide),
   by decide⟩

/-- C5. `checkFileWithRule` returns an error (and so no result) exactly when the
file read fails or one of the three steps fails for some chunk; when the read
succeeds and the steps succeed for every chunk, with `texts` the parsed texts in
chunk order, it returns the single result whose `File` is the file path, whose
`AppliedRules` is the name of the rule alone and whose `Result` is
`mergeResults texts`; and no step is made twice for a chunk. -/
theorem checkFileWithRule_spec (c : CodeChecker) (readFile : Str → Except Str Str)
    (filePath : Str) (rule : Rule) :
    ((∃ e, (checkFileWithRule c readFile filePath rule).2 = .error e)
      ↔ ((∃ e, readFile filePath = .error e)
          ∨ ∃ content, readFile filePath = .ok content
              ∧ ∃ i chunk e, (splitCodeContent c.maxTextLength content)[i]? = some chunk
                  ∧ reviewChunk c rule i chunk = .error e))
    ∧ (∀ content texts, readFile filePath = .ok content →
        texts.length = (splitCodeContent c.maxTextLength content).length →
        (∀ i chunk, (splitCodeContent c.maxTextLength content)[i]? = some chunk →
          ∃ t, texts[i]? = some t ∧ reviewChunk c rule i chunk = .ok t) →
        (checkFileWithRule c readFile filePath rule).2
          = .ok [{ File := filePath, Result := mergeResults texts,
                   AppliedRules := [rule.Name] }])
    ∧ (∀ k, (checkFileWithRule c readFile filePath rule).1.count (Event.build k) ≤ 1
        ∧ (checkFileWithRule c readFile filePath rule).1.count (Event.call k) ≤ 1
        ∧ (checkFileWithRule c readFile filePath rule).1.count (Event.parse k) ≤ 1) := by
  have hlog : ∀ k, (checkFileWithRule c readFile filePath rule).1.count (Event.build k) ≤ 1
      ∧ (checkFileWithRule c readFile filePath rule).1.count (Event.call k) ≤ 1
      ∧ (checkFileWithRule c readFile filePath rule).1.count (Event.parse k) ≤ 1 := by
    intro k
    rw [checkFileWithRule_log]
    cases readFile filePath with
    | error e => simp
    | ok content =>
      exact checkChunks_log_once c rule _ _ 0 [] [] (fun k _ => by simp) (fun k => by simp) k
  rw [← and_assoc]
  refine ⟨?_, hlog⟩
  cases hread : readFile filePath with
  | error e0 =>
    refine ⟨?_, ?_⟩
    · simp [checkFileWithRule, hread]
    · intro content texts h; simp at h
  | ok content =>
    have hcases := checkChunks_cases c rule (splitCodeContent c.maxTextLength content).length
      (splitCodeContent c.maxTextLength content) 0 [] []
    simp only [Nat.zero_add, List.nil_append] at hcases
    rcases hcases with ⟨texts0, hlen0, hpt0, hres0⟩ | ⟨j, ch, e, hj, he, e1, hres⟩
    · have hval : (checkFileWithRule c readFile filePath rule).2
          = .ok [{ File := filePath, Result := mergeResults texts0,
                   AppliedRules := [rule.Name] }] := by
        unfold checkFileWithRule
        simp only [hread]
        generalize checkChunks c rule (splitCodeContent c.maxTextLength content).length 0
          (splitCodeContent c.maxTextLength content) [] [] = r at hres0
        obtain ⟨log, res⟩ := r
        simp only at hres0
        subst hres0
        rfl
      refine ⟨?_, ?_⟩
      · constructor
        · rintro ⟨e, he⟩
          rw [hval] at he
          cases he
        · rintro (⟨e, he⟩ | ⟨content1, hc1, i, chunk, e, hi, he⟩)
          · cases he
          · injection hc1 with hc1
            subst hc1
            obtain ⟨t, _, ht⟩ := hpt0 i chunk hi
            rw [ht] at he
            cases he
      · intro content1 texts hc1 hlen hpt
        injection hc1 with hc1
        subst hc1
        have : texts = texts0 := texts_unique c rule _ texts texts0 hlen hlen0 hpt hpt0
        rw [this, hval]
    · have hval : ∃ e2, (checkFileWithRule c readFile filePath rule).2 = .error e2 := by
        unfold checkFileWithRule
        simp only [hread]
        generalize checkChunks c rule (splitCodeContent c.maxTextLength content).length 0
          (splitCodeContent c.maxTextLength content) [] [] = r at hres
        obtain ⟨log, res⟩ := r
        simp only at hres
        subst hres
        exact ⟨e1, rfl⟩
      refine ⟨?_, ?_⟩
      · constructor
        · intro _
          exact Or.inr ⟨content, rfl, j, ch, e, hj, he⟩
        · intro _
          exact hval
      · intro content1 texts hc1 hlen hpt
        injection hc1 with hc1
        subst hc1
        obtain ⟨t, _, ht⟩ := hpt j ch hj
        rw [ht] at he
        cases he

/-- C5 at a concrete unit: a two-chunk file whose calls all succeed gives one
result that merges the two texts, and a file that cannot be read gives an
error. -/
theorem checkFileWithRule_witness :
    (checkFileWithRule (sampleChecker [sampleRule] 2) (fun _ => .ok "ab\n\ncd".toList)
        "src/a.lua".toList sampleRule).2
      = .ok [{ File := "src/a.lua".toList,
               Result := mergeResults ["finding".toList, "finding".toList],
               AppliedRules := ["r".toList] }]
    ∧ ∃ e, (checkFileWithRule (sampleChecker [sampleRule] 2)
        (fun _ => .error "no such file".toList) "src/a.lua".toList sampleRule).2 = .error e :=
  ⟨(checkFileWithRule_spec (sampleChecker [sampleRule] 2) (fun _ => .ok "ab\n\ncd".toList)
      "src/a.lua".toList sampleRule).2.1 "ab\n\ncd".toList ["finding".toList, "finding".toList]
      rfl (by decide)
      (by
        intro i chunk h
        have hc : splitCodeContent (sampleChecker [sampleRule] 2).maxTextLength "ab\n\ncd".toList
            = ["ab".toList, "cd".toList] := by decide
        rw [hc] at h
        rcases i with _ | _ | i
        · exact ⟨"finding".toList, rfl, rfl⟩
        · exact ⟨"finding".toList, rfl, rfl⟩
        · simp at h),
   (checkFileWithRule_spec (sampleChecker [sampleRule] 2)
      (fun _ => .error "no such file".toList) "src/a.lua".toList sampleRule).1.2
      (Or.inl ⟨"no such file".toList, rfl⟩)⟩

/-- C6, as the claim states it, fails: `mergeResults` of the one-element list
`["a"]` is not `"a"`. -/
theorem mergeResults_single_not_identity :
    mergeResults ["a".toList] ≠ "a".toList := by
  decide

/-- C6, amended: for every string `x`, `mergeResults [x]` is `x` followed by two
newline characters, with no report header and no section heading before it. -/
theorem mergeResults_single (x : Str) :
    mergeResults [x] = x ++ "\n\n".toList := by
  simp [mergeResults, mergeLoop_single]

/-- C7, as the claim states it, fails: with `maxTextLength = 2` the content
`"\n\n\n"` gives no chunk at all. -/
theorem splitCodeContent_can_be_empty :
    splitCodeContent 2 "\n\n\n".toList = [] := by
  decide

/-- C7, amended: `splitCodeContent` returns at least one chunk for every content
that is at most `maxTextLength` bytes long or has a character other than the
newline. -/
theorem splitCodeContent_ne_nil (maxTextLength : Int) (content : Str)
    (h : (len content : Int) ≤ maxTextLength ∨ ∃ ch ∈ content, ch ≠ '\n') :
    splitCodeContent maxTextLength content ≠ [] := by
  intro hnil
  obtain ⟨hlt, hall⟩ := (splitCodeContent_eq_nil_iff maxTextLength content).1 hnil
  rcases h with h | ⟨ch, hmem, hne⟩
  · omega
  · exact hne (hall ch hmem)

/-- C7, amended, at concrete contents: a content within the budget is its own
single chunk, and an over-budget content with letters gives two chunks. -/
theorem splitCodeContent_ne_nil_witness :
    splitCodeContent 4000 "\n\n\n".toList ≠ []
    ∧ splitCodeContent 2 "ab\ncd".toList ≠ [] :=
  ⟨splitCodeContent_ne_nil 4000 "\n\n\n".toList (Or.inl (by decide)),
   splitCodeContent_ne_nil 2 "ab\ncd".toList (Or.inr ⟨'a', by decide, by decide⟩)⟩

/-- C8. Every chunk of `splitCodeContent` is at most `maxTextLength` bytes long,
or it contains no newline and is one line of the content that is longer than
`maxTextLength`; hence when every line of the content is at most
`maxTextLength` bytes long, so is every chunk. -/
theorem splitCodeContent_soft_bound (maxTextLength : Int) (content : Str) :
    (∀ chunk ∈ splitCodeContent maxTextLength content,
        (len chunk : Int) ≤ maxTextLength
        ∨ ('\n' ∉ chunk ∧ chunk ∈ stringsSplit '\n' content
            ∧ maxTextLength < (len chunk : Int)))
    ∧ ((∀ line ∈ stringsSplit '\n' content, (len line : Int) ≤ maxTextLength) →
        ∀ chunk ∈ splitCodeContent maxTextLength content,
          (len chunk : Int) ≤ maxTextLength) := by
  constructor
  · intro chunk h
    rcases splitCodeContent_chunk_sound maxTextLength content chunk h with h1 | h1
    · exact Or.inl h1
    · exact Or.inr ⟨sep_not_mem_of_mem_stringsSplit '\n' content chunk h1.1, h1.1, h1.2⟩
  · intro hlines chunk h
    rcases splitCodeContent_chunk_sound maxTextLength content chunk h with h1 | h1
    · exact h1
    · exact hlines chunk h1.1

/-- C8 at a concrete content: with `maxTextLength = 5` the lines `"ab"` and
`"cd"` share a chunk of five bytes and the eight-byte line is a chunk of its
own. -/
theorem splitCodeContent_soft_bound_witness :
    splitCodeContent 5 "ab\ncd\nefghijkl\nx".toList
        = ["ab\ncd".toList, "efghijkl".toList, "x".toList]
    ∧ ∀ chunk ∈ splitCodeContent 5 "ab\ncd\nefghijkl\nx".toList,
        (len chunk : Int) ≤ 5
        ∨ ('\n' ∉ chunk ∧ chunk ∈ stringsSplit '\n' "ab\ncd\nefghijkl\nx".toList
            ∧ (5 : Int) < (len chunk : Int)) :=
  ⟨by decide, (splitCodeContent_soft_bound 5 "ab\ncd\nefghijkl\nx".toList).1⟩

/-- C9. Whatever the case table `lower` of `strings.ToLower` is,
`getApplicableRules` returns, in the configured order, exactly the enabled rules
one of whose extensions, lowercased, equals the lowercased extension of the
path, and `needContent` is true exactly when one of the returned rules has a
keyword; an empty rule list gives no rule and `false`. -/
theorem getApplicableRules_spec (lower : Char → Char) (rules : List Rule) (filePath : Str) :
    (getApplicableRules lower rules filePath).1
        = rules.filter (fun r => r.Enabled
            && r.Extensions.any
                (fun e => stringsToLower lower e
                    == stringsToLower lower (filepathExt filePath)))
    ∧ ((getApplicableRules lower rules filePath).2 = true
        ↔ ∃ r ∈ (getApplicableRules lower rules filePath).1, r.Keywords ≠ [])
    ∧ getApplicableRules lower [] filePath = ([], false) := by
  have hfold := applicable_foldl lower filePath rules [] false
  have hm : ∀ r : Rule, matchExtension lower filePath r
      = r.Extensions.any
          (fun e => stringsToLower lower e == stringsToLower lower (filepathExt filePath)) :=
    fun r => by simp [matchExtension, matchExtensionLoop_eq_any]
  refine ⟨?_, ?_, rfl⟩
  · unfold getApplicableRules
    rw [hfold]
    simp [hm]
  · unfold getApplicableRules
    rw [hfold]
    simp only [List.nil_append, Bool.false_or, List.any_eq_true, decide_eq_true_eq]
    constructor
    · rintro ⟨r, hr, hk⟩
      exact ⟨r, hr, fun h => by simp [h] at hk⟩
    · rintro ⟨r, hr, hk⟩
      exact ⟨r, hr, List.length_pos.2 hk⟩

/-- C9 at concrete rule lists, for paths whose extension differs in case from
that of the rule. With the case table of the ASCII letters: of an enabled `.LUA`
rule with a keyword, a disabled `.lua` rule and an enabled `.cpp` rule, the path
`src/A.Lua` gets the first alone, and its content is needed. With a case table
that has the pair `É`, `é`: the path `src/a.É` gets the rule of extension `.é`. -/
theorem getApplicableRules_witness :
    getApplicableRules Char.toLower
        [{ Name := "a".toList, Description := [], Extensions := [".LUA".toList],
           Keywords := ["eval".toList], Enabled := true },
         { Name := "b".toList, Description := [], Extensions := [".lua".toList],
           Keywords := [], Enabled := false },
         { Name := "c".toList, Description := [], Extensions := [".cpp".toList],
           Keywords := [], Enabled := true }]
        "src/A.Lua".toList
      = ([{ Name := "a".toList, Description := [], Extensions := [".LUA".toList],
            Keywords := ["eval".toList], Enabled := true }], true)
    ∧ getApplicableRules latinLower
        [{ Name := "e".toList, Description := [], Extensions := [".é".toList],
           Keywords := [], Enabled := true }]
        "src/a.É".toList
      = ([{ Name := "e".toList, Description := [], Extensions := [".é".toList],
            Keywords := [], Enabled := true }], false)
    ∧ getApplicableRules latinLower [] "src/a.É".toList = ([], false) :=
  ⟨by decide, by decide, (getApplicableRules_spec latinLower [] "src/a.É".toList).2.2⟩

/-- C10. `filterRulesByContent` returns, in the original order, exactly the
rules whose keyword list is empty or one of whose keywords occurs in the
content as a substring (`stringsContains`, which holds exactly when the content
is some text, the keyword, some text); a rule with keywords none of which
occurs is removed, and an empty rule list gives an empty result. -/
theorem filterRulesByContent_spec (rules : List Rule) (content : Str) :
    filterRulesByContent rules content
        = rules.filter (fun r => r.Keywords.isEmpty
            || r.Keywords.any (fun k => stringsContains content k))
    ∧ (∀ s k : Str, stringsContains s k = true ↔ ∃ a b, s = a ++ k ++ b)
    ∧ (∀ r ∈ rules, r.Keywords ≠ [] →
        (∀ k ∈ r.Keywords, ¬ ∃ a b, content = a ++ k ++ b) →
        r ∉ filterRulesByContent rules content)
    ∧ filterRulesByContent [] content = [] := by
  have heq : filterRulesByContent rules content
      = rules.filter (fun r => r.Keywords.isEmpty
          || r.Keywords.any (fun k => stringsContains content k)) := by
    unfold filterRulesByContent
    rw [filter_foldl]
    simp [matchKeywords_eq]
  refine ⟨heq, stringsContains_iff, ?_, rfl⟩
  intro r _ hne hnone hmem
  rw [heq, List.mem_filter] at hmem
  have h2 := hmem.2
  simp only [Bool.or_eq_true, List.isEmpty_iff, List.any_eq_true] at h2
  rcases h2 with h2 | ⟨k, hk, hc⟩
  · exact hne h2
  · exact hnone k hk ((stringsContains_iff content k).1 hc)

/-- C10 at the rule with keywords `eval` and `exec`: against a content with
neither keyword the rule is removed, against a content with `exec` it is
kept. -/
theorem filterRulesByContent_witness :
    filterRulesByContent
        [{ Name := "r".toList, Description := [], Extensions := [".lua".toList],
           Keywords := ["eval".toList, "exec".toList], Enabled := true }]
        "print(1)".toList = []
    ∧ filterRulesByContent
        [{ Name := "r".toList, Description := [], Extensions := [".lua".toList],
           Keywords := ["eval".toList, "exec".toList], Enabled := true }]
        "os.exec(1)".toList
      = [{ Name := "r".toList, Description := [], Extensions := [".lua".toList],
           Keywords := ["eval".toList, "exec".toList], Enabled := true }]
    ∧ filterRulesByContent [] "print(1)".toList = [] :=
  ⟨by decide, by decide, (filterRulesByContent_spec [] "print(1)".toList).2.2.2⟩

/-! ## Properties of the specification, C11 to C18 -/

/-- C11. For a list of at least two chunk texts `mergeResults` returns the
report header followed, for each text in order, by the heading numbered from
one, the text itself and two newline characters: one section per chunk, every
text verbatim, nothing removed. -/
theorem mergeResults_many (results : List Str) (h : results.length ≥ 2) :
    mergeResults results
        = "# 文件检查结果汇总\n\n".toList
          ++ (results.enum.map
              (fun p => "## 第".toList ++ (Nat.repr (p.1 + 1)).toList ++ "部分\n\n".toList
                ++ p.2 ++ "\n\n".toList)).flatten
    ∧ (results.enum.map
        (fun p => "## 第".toList ++ (Nat.repr (p.1 + 1)).toList ++ "部分\n\n".toList
          ++ p.2 ++ "\n\n".toList)).length = results.length := by
  have h0 : ¬ results.length = 0 := by omega
  have h1 : results.length > 1 := by omega
  refine ⟨?_, by simp⟩
  unfold mergeResults
  simp only [h0, if_false, h1, if_true]
  rw [mergeLoop_many results.length h1 results 0]
  rfl

/-- C11 at two equal texts: both are kept, each under its own heading. -/
theorem mergeResults_many_witness :
    mergeResults ["same".toList, "same".toList]
      = "# 文件检查结果汇总\n\n## 第1部分\n\nsame\n\n## 第2部分\n\nsame\n\n".toList :=
  (mergeResults_many ["same".toList, "same".toList] (by decide)).1.trans (by decide)

/-- C12, as the claim states it, fails: when no file can be created, of the
outcomes for `src/a.lua` (succeeded), `src/b.lua` (succeeded) and `src/c.lua`
(failed) the loop passes the first alone to `AddResult` and returns the error of
`AddResult`, which does not name `src/c.lua`. -/
theorem collectResults_sink_failure :
    (collectResults (fullDiskEnv [] [])
        [okOutcome "src/a.lua".toList, okOutcome "src/b.lua".toList,
         failedOutcome "src/c.lua".toList] emptyCollect).1.added
      = [(okOutcome "src/a.lua".toList).result]
    ∧ errorMessage (collectResults (fullDiskEnv [] [])
        [okOutcome "src/a.lua".toList, okOutcome "src/b.lua".toList,
         failedOutcome "src/c.lua".toList] emptyCollect).2
      = some ("add result failed: create result file failed: no space left on device".toList)
    ∧ stringsContains
        "add result failed: create result file failed: no space left on device".toList
        "src/c.lua".toList = false := by
  decide

/-- C12, amended: for outcomes `pre`, then `failed`, then `post` in arrival
order, where `pre` are successful, `failed` has an error, and `AddResult`
succeeds on each result of `pre` in turn, the loop passes to `AddResult` exactly
the results of `pre`, in order, and returns the error that names the file path
and the rule name of `failed`; the sink is as the calls for `pre` left it, with
every path that existed before still there. -/
theorem collectResults_first_failure (env : Env) (pre post : List checkResult)
    (failed : checkResult) (e : Str) (st : CollectState)
    (hpre : ∀ r ∈ pre, r.err = none) (hfail : failed.err = some e)
    (hsink : ∀ done r rest, pre = done ++ r :: rest →
      (AddResult env (sinkAfter env st.sink (done.map (fun o => o.result))) r.result).2
        = .ok ()) :
    (collectResults env (pre ++ failed :: post) st).2
        = .error ("检查文件 ".toList ++ failed.task.filePath ++ " 规则 ".toList
            ++ failed.task.rule.Name ++ " 失败: ".toList ++ e)
    ∧ stringsContains ("检查文件 ".toList ++ failed.task.filePath ++ " 规则 ".toList
            ++ failed.task.rule.Name ++ " 失败: ".toList ++ e) failed.task.filePath = true
    ∧ stringsContains ("检查文件 ".toList ++ failed.task.filePath ++ " 规则 ".toList
            ++ failed.task.rule.Name ++ " 失败: ".toList ++ e) failed.task.rule.Name = true
    ∧ (collectResults env (pre ++ failed :: post) st).1.added
        = st.added ++ pre.map (fun o => o.result)
    ∧ (collectResults env (pre ++ failed :: post) st).1.sink
        = sinkAfter env st.sink (pre.map (fun o => o.result))
    ∧ st.sink.paths ⊆ (collectResults env (pre ++ failed :: post) st).1.sink.paths := by
  obtain ⟨h1, h2, h3⟩ := collectResults_until_failure env failed e post hfail pre st hpre hsink
  refine ⟨h1, ?_, ?_, h2, h3, ?_⟩
  · rw [stringsContains_iff]
    exact ⟨"检查文件 ".toList,
      " 规则 ".toList ++ failed.task.rule.Name ++ " 失败: ".toList ++ e,
      by simp [List.append_assoc]⟩
  · rw [stringsContains_iff]
    exact ⟨"检查文件 ".toList ++ failed.task.filePath ++ " 规则 ".toList,
      " 失败: ".toList ++ e, by simp [List.append_assoc]⟩
  · rw [h3]
    exact sinkAfter_paths_subset env _ st.sink

/-- C12, amended, at three outcomes: `src/a.lua` succeeded, `src/b.lua` failed,
`src/c.lua` succeeded; the result for `src/a.lua` alone is passed to
`AddResult`. -/
theorem collectResults_first_failure_witness :
    (collectResults (sampleEnv [] [])
        ([okOutcome "src/a.lua".toList] ++ failedOutcome "src/b.lua".toList
          :: [okOutcome "src/c.lua".toList]) emptyCollect).1.added
      = emptyCollect.added ++ [okOutcome "src/a.lua".toList].map (fun o => o.result)
    ∧ errorMessage (collectResults (sampleEnv [] [])
        ([okOutcome "src/a.lua".toList] ++ failedOutcome "src/b.lua".toList
          :: [okOutcome "src/c.lua".toList]) emptyCollect).2
      = some "检查文件 src/b.lua 规则 r 失败: call API failed: timeout".toList :=
  ⟨(collectResults_first_failure (sampleEnv [] []) [okOutcome "src/a.lua".toList]
      [okOutcome "src/c.lua".toList] (failedOutcome "src/b.lua".toList)
      "call API failed: timeout".toList emptyCollect (by decide) rfl
      (by
        intro done r rest h
        cases done with
        | nil =>
          simp only [List.nil_append, List.cons.injEq] at h
          obtain ⟨h1, _⟩ := h
          subst h1
          rfl
        | cons d ds =>
          simp only [List.cons_append, List.cons.injEq] at h
          have := h.2
          simp at this)).2.2.2.1,
   by decide⟩

/-- C13, as the claim states it, fails: `NewCodeChecker` accepts the
concurrency zero, and with it `CheckDirectory` returns success with one task
scheduled, no result passed to `AddResult` and no report written. -/
theorem checkDirectory_no_worker :
    ∃ c, NewCodeChecker [sampleRule] [] [] [] 4000 8192 30 0 [] none sampleClient = .ok c
      ∧ c.concurrency = 0
      ∧ CheckDirectory c (sampleEnv ["src/a.lua".toList] "x".toList) [] "src".toList
          "out".toList
        = { tasks := [{ filePath := "src/a.lua".toList, rule := sampleRule }],
            added := [], paths := [], err := none } :=
  ⟨_, rfl, rfl, by decide⟩

/-- C13, amended: with a concurrency of at least one, and whatever order of
arrival the pool produces (the sender, the task channel and `concurrency`
workers, run in any interleaving to the return of all the workers), a run of
`CheckDirectory` that returns success has passed to `AddResult` one result for
each scheduled task, with the file path and the rule name of the task: as many
results as tasks. -/
theorem checkDirectory_success_added (c : CodeChecker) (env : Env) (paths : List Str)
    (directory outputDir : Str) (hworkers : c.concurrency ≥ 1)
    (hpool : PoolRuns c.concurrency.toNat
      (CheckDirectory c env paths directory outputDir).tasks
      (env.arrival (CheckDirectory c env paths directory outputDir).tasks))
    (h : (CheckDirectory c env paths directory outputDir).err = none) :
    ((CheckDirectory c env paths directory outputDir).added.map
        (fun r => (r.File, r.AppliedRules))).Perm
      ((CheckDirectory c env paths directory outputDir).tasks.map
        (fun t => (t.filePath, [t.rule.Name])))
    ∧ (CheckDirectory c env paths directory outputDir).added.length
        = (CheckDirectory c env paths directory outputDir).tasks.length := by
  obtain ⟨files, st, cs, _, _, hcol, htasks, hadded⟩ :=
    checkDirectory_success c env paths directory outputDir h
  obtain ⟨hall, hcs⟩ := collectResults_ok env _ _ cs hcol
  have harrival : (env.arrival st.tasks).Perm st.tasks := by
    rw [htasks] at hpool
    exact poolRuns_perm c.concurrency.toNat st.tasks _ (by omega) hpool
  have hout : poolOutcomes c env st.tasks
      = (env.arrival st.tasks).filterMap (workerOutcome c env) := by
    simp [poolOutcomes, hworkers]
  rw [hout] at hall hcs
  obtain ⟨hmap, hkey⟩ := filterMap_workerOutcome c env (env.arrival st.tasks)
  have hkeys : ((env.arrival st.tasks).filterMap (workerOutcome c env)).map
      (fun o => (o.result.File, o.result.AppliedRules))
      = (env.arrival st.tasks).map (fun t => (t.filePath, [t.rule.Name])) := by
    have h1 : ((env.arrival st.tasks).filterMap (workerOutcome c env)).map
        (fun o => (o.result.File, o.result.AppliedRules))
        = ((env.arrival st.tasks).filterMap (workerOutcome c env)).map
            (fun o => (o.task.filePath, [o.task.rule.Name])) := by
      apply List.map_congr_left
      intro o ho
      obtain ⟨h2, h3⟩ := hkey o ho (hall o ho)
      rw [h2, h3]
    rw [h1]
    have h4 : (fun o : checkResult => (o.task.filePath, [o.task.rule.Name]))
        = (fun t : checkTask => (t.filePath, [t.rule.Name])) ∘ (fun o => o.task) := rfl
    rw [h4, ← List.map_map, hmap]
  have hperm : ((CheckDirectory c env paths directory outputDir).added.map
      (fun r => (r.File, r.AppliedRules))).Perm
      ((CheckDirectory c env paths directory outputDir).tasks.map
        (fun t => (t.filePath, [t.rule.Name]))) := by
    rw [hadded, htasks, hcs]
    simp only [List.nil_append, List.map_map]
    have h5 : ((fun r : Result => (r.File, r.AppliedRules)) ∘ fun o : checkResult => o.result)
        = fun o => (o.result.File, o.result.AppliedRules) := rfl
    rw [h5, hkeys]
    exact harrival.map _
  refine ⟨hperm, ?_⟩
  have := hperm.length_eq
  simpa using this

/-- C13, amended, at a concrete directory: three workers, two files and one
rule, in a run of the pool where the tasks finish in the order of the queue,
give two tasks and two results passed to `AddResult`; one such run has the
first worker take the first task and the third worker the second. -/
theorem checkDirectory_success_added_witness :
    (CheckDirectory (sampleChecker [sampleRule] 4000)
        (sampleEnv ["src/a.lua".toList, "src/b.lua".toList] "x".toList) [] "src".toList
        "out".toList).added.length
      = (CheckDirectory (sampleChecker [sampleRule] 4000)
        (sampleEnv ["src/a.lua".toList, "src/b.lua".toList] "x".toList) [] "src".toList
        "out".toList).tasks.length
    ∧ (CheckDirectory (sampleChecker [sampleRule] 4000)
        (sampleEnv ["src/a.lua".toList, "src/b.lua".toList] "x".toList) [] "src".toList
        "out".toList).tasks.length = 2
    ∧ poolOrder 3
        [{ filePath := "src/a.lua".toList, rule := sampleRule },
         { filePath := "src/b.lua".toList, rule := sampleRule }]
        [.send, .send, .close, .take 0, .take 2, .finish 0, .finish 2, .leave 1, .leave 0,
         .leave 2]
      = some [{ filePath := "src/a.lua".toList, rule := sampleRule },
              { filePath := "src/b.lua".toList, rule := sampleRule }] :=
  ⟨(checkDirectory_success_added (sampleChecker [sampleRule] 4000)
      (sampleEnv ["src/a.lua".toList, "src/b.lua".toList] "x".toList) [] "src".toList
      "out".toList (by decide) (poolRuns_in_order 3 _ (by decide)) (by decide)).2,
   by decide, by decide⟩

/-- C14. When a time filter is set and `HasCommitsAfterSafe` reports false for
a file, the enumeration schedules no task for that file, whatever rules match
it; and the check is made for a file as many times as the walk lists it (once
for a file listed once) when a rule matches the file by extension and keyword,
not once per rule, and not at all when no rule matches. -/
theorem enumerate_time_filter (c : CodeChecker) (env : Env) (paths : List Str)
    (outputDir : Str) (files : List Str) (filePath : Str) (afterTime : Time)
    (st : EnumState)
    (hfilter : c.svnFilterAfter = some afterTime)
    (hno : HasCommitsAfterSafe env filePath afterTime = false)
    (henum : enumerate c env paths outputDir files = .ok st) :
    (∀ task ∈ st.tasks, task.filePath ≠ filePath)
    ∧ (∀ rules, matchingRules c env filePath = .ok rules →
        st.svnQueries.count filePath = if rules = [] then 0 else files.count filePath) := by
  constructor
  · intro task htask hpath
    have h1 := enumerate_tasks c env paths outputDir files
    rw [henum] at h1
    cases h2 : candidatePairs c env files with
    | error e => rw [h2] at h1; simp [Except.map] at h1
    | ok pairs =>
      rw [h2] at h1
      simp only [Except.map, Except.ok.injEq] at h1
      rw [h1, List.mem_filter] at htask
      obtain ⟨rules, hr, hmem⟩ := candidatePairs_mem c env files pairs h2 task htask.1
      rw [hpath] at hr
      have := candidateRules_not_recent c env filePath afterTime hfilter hno rules hr
      rw [this] at hmem
      simp at hmem
  · intro rules hrules
    unfold enumerate at henum
    have h := enumFiles_svnQueries_count c env paths outputDir _ afterTime hfilter filePath
      rules hrules files _ st henum
    simpa using h

/-- C14 at a concrete directory: two enabled rules match both files, `svn`
reports a recent commit for `src/b.lua` only; the two tasks are for `src/b.lua`
and the check was made once for each file. -/
theorem enumerate_time_filter_witness :
    enumerate filterChecker
        (svnEnv ["src/a.lua".toList, "src/b.lua".toList] "x".toList "src/b.lua".toList)
        [] "out".toList ["src/a.lua".toList, "src/b.lua".toList]
      = .ok filterState
    ∧ (∀ task ∈ filterState.tasks, task.filePath ≠ "src/a.lua".toList)
    ∧ filterState.svnQueries.count "src/a.lua".toList = 1 :=
  ⟨by rfl,
   (enumerate_time_filter filterChecker
      (svnEnv ["src/a.lua".toList, "src/b.lua".toList] "x".toList "src/b.lua".toList)
      [] "out".toList ["src/a.lua".toList, "src/b.lua".toList] "src/a.lua".toList 0
      filterState rfl (by decide) (by rfl)).1,
   by decide⟩

/-- C15. A content of at most `maxTextLength` bytes is returned as the single
chunk, unchanged. -/
theorem splitCodeContent_within_budget (maxTextLength : Int) (content : Str)
    (h : (len content : Int) ≤ maxTextLength) :
    splitCodeContent maxTextLength content = [content] := by
  simp [splitCodeContent, h]

/-- C15 at a content of twelve bytes (four characters of three bytes) and the
budget twelve, and at the empty content with the budget zero. -/
theorem splitCodeContent_within_budget_witness :
    len "文件检查".toList = 12
    ∧ splitCodeContent 12 "文件检查".toList = ["文件检查".toList]
    ∧ splitCodeContent 0 [] = [[]] :=
  ⟨by decide, splitCodeContent_within_budget 12 "文件检查".toList (by decide),
   splitCodeContent_within_budget 0 [] (by decide)⟩

/-- C16. When the file is read and the three steps succeed for each of the `n`
chunks, the events of `checkFileWithRule` are, for each chunk in order, its
build, its call and its parse, with a pause after each chunk but the last: the
parse of a chunk, a pause and the build of the next chunk follow one another,
and the pauses are `n - 1` in number. -/
theorem checkFileWithRule_events (c : CodeChecker) (readFile : Str → Except Str Str)
    (filePath : Str) (rule : Rule) (content : Str)
    (hread : readFile filePath = .ok content)
    (hok : ∀ i chunk, (splitCodeContent c.maxTextLength content)[i]? = some chunk →
      ∃ t, reviewChunk c rule i chunk = .ok t) :
    (checkFileWithRule c readFile filePath rule).1
        = unitEvents (splitCodeContent c.maxTextLength content).length 0
            (splitCodeContent c.maxTextLength content).length
    ∧ (checkFileWithRule c readFile filePath rule).1.count Event.sleep
        = (splitCodeContent c.maxTextLength content).length - 1
    ∧ (∀ i, i + 1 < (splitCodeContent c.maxTextLength content).length →
        ∃ pre post, (checkFileWithRule c readFile filePath rule).1
          = pre ++ [Event.parse i, Event.sleep, Event.build (i + 1)] ++ post)
    ∧ ((splitCodeContent c.maxTextLength content).length ≥ 1 →
        (checkFileWithRule c readFile filePath rule).1.getLast?
          = some (Event.parse ((splitCodeContent c.maxTextLength content).length - 1))) := by
  have hlog : (checkFileWithRule c readFile filePath rule).1
      = unitEvents (splitCodeContent c.maxTextLength content).length 0
          (splitCodeContent c.maxTextLength content).length := by
    rw [checkFileWithRule_log, hread]
    simp only
    rw [checkChunks_ok_log c rule _ _ 0 [] [] (by simpa using hok)]
    simp
  rw [hlog]
  refine ⟨rfl, ?_, ?_, ?_⟩
  · rw [unitEvents_count_sleep _ _ 0 (by omega)]
    by_cases hn : (splitCodeContent c.maxTextLength content).length > 0
    · simp [hn]
    · have : (splitCodeContent c.maxTextLength content).length = 0 := by omega
      simp [this]
  · intro i hi
    exact unitEvents_between _ _ 0 i (by omega) (by omega) hi
  · intro hn
    obtain ⟨k, hk⟩ : ∃ k, (splitCodeContent c.maxTextLength content).length = k + 1 :=
      ⟨(splitCodeContent c.maxTextLength content).length - 1, by omega⟩
    rw [hk]
    exact unitEvents_getLast (k + 1) k 0 (by omega)

/-- C16 at a unit of two chunks: build, call and parse of the first chunk, one
pause, then build, call and parse of the second chunk. -/
theorem checkFileWithRule_events_witness :
    (checkFileWithRule (sampleChecker [sampleRule] 2) (fun _ => .ok "ab\n\ncd".toList)
        "src/a.lua".toList sampleRule).1
      = [Event.build 0, Event.call 0, Event.parse 0, Event.sleep,
         Event.build 1, Event.call 1, Event.parse 1] :=
  ((checkFileWithRule_events (sampleChecker [sampleRule] 2) (fun _ => .ok "ab\n\ncd".toList)
      "src/a.lua".toList sampleRule "ab\n\ncd".toList rfl
      (fun i chunk _ => ⟨"finding".toList, rfl⟩)).1).trans (by decide)

/-- C17. The non-empty lines of the chunks of `splitCodeContent`, chunk after
chunk, are the non-empty lines of the content, in order; and when the content
neither starts nor ends with a newline and has no two newlines in a row, joining
the chunks with a newline gives the content back. -/
theorem splitCodeContent_keeps_lines (maxTextLength : Int) (content : Str) :
    nonEmpty ((splitCodeContent maxTextLength content).flatMap (stringsSplit '\n'))
        = nonEmpty (stringsSplit '\n' content)
    ∧ (content.head? ≠ some '\n' → content.getLast? ≠ some '\n' →
        stringsContains content ['\n', '\n'] = false →
        stringsJoin '\n' (splitCodeContent maxTextLength content) = content) := by
  obtain ⟨added, h1, h2, h3⟩ := splitCodeContent_lines maxTextLength content
  refine ⟨by rw [h1, h2], ?_⟩
  intro hfirst hlast hdbl
  have hdbl1 : ∀ a b, content ≠ a ++ '\n' :: '\n' :: b := by
    intro a b h
    have : stringsContains content ['\n', '\n'] = true :=
      (stringsContains_iff content ['\n', '\n']).2 ⟨a, b, by simp [h]⟩
    rw [hdbl] at this
    cases this
  rcases stringsSplit_no_blank '\n' content hfirst hlast hdbl1 with h | h
  · subst h
    exact splitCodeContent_nil_content maxTextLength
  · rw [← stringsJoin_flatMap_split, h1, h3 h, stringsJoin_split]

/-- C17 at concrete contents with the budget two: of `"ab\n\ncd"` the lines
`ab` and `cd` are kept and the empty line is lost; `"ab\ncd\nef"`, which has no
empty line, is given back by the join of its chunks. -/
theorem splitCodeContent_keeps_lines_witness :
    nonEmpty ((splitCodeContent 2 "ab\n\ncd".toList).flatMap (stringsSplit '\n'))
        = ["ab".toList, "cd".toList]
    ∧ stringsJoin '\n' (splitCodeContent 2 "ab\ncd\nef".toList) = "ab\ncd\nef".toList :=
  ⟨((splitCodeContent_keeps_lines 2 "ab\n\ncd".toList).1).trans (by decide),
   (splitCodeContent_keeps_lines 2 "ab\ncd\nef".toList).2 (by decide) (by decide) (by decide)⟩

/-- C18. `resultExists` gives the same answer for two file paths with the same
base name, for the same rule name, output directory and existing paths; so when
it answers true for one of them, the enumeration schedules no task for the
other. -/
theorem resultExists_base_only (paths : List Str) (filePath1 filePath2 ruleName outputDir : Str)
    (h : filepathBase filePath1 = filepathBase filePath2) :
    resultExists paths filePath1 ruleName outputDir
        = resultExists paths filePath2 ruleName outputDir
    ∧ (∀ (st : EnumState) (rule : Rule), rule.Name = ruleName →
        resultExists paths filePath1 ruleName outputDir = true →
        (scheduleStep paths outputDir filePath2 st rule).tasks = st.tasks) := by
  have heq : resultExists paths filePath1 ruleName outputDir
      = resultExists paths filePath2 ruleName outputDir := by
    simp only [resultExists, h]
  refine ⟨heq, ?_⟩
  intro st rule hname h1
  rw [heq] at h1
  simp [scheduleStep, hname, h1]

/-- C18 at two directories: the report written for `src/x/a.lua` makes
`resultExists` true for `src/y/a.lua`, and a run over both files with that
report in place schedules nothing. -/
theorem resultExists_base_only_witness :
    resultExists ["out/r/a.lua.md".toList] "src/x/a.lua".toList "r".toList "out".toList
        = resultExists ["out/r/a.lua.md".toList] "src/y/a.lua".toList "r".toList "out".toList
    ∧ resultExists ["out/r/a.lua.md".toList] "src/y/a.lua".toList "r".toList "out".toList = true
    ∧ (CheckDirectory (sampleChecker [sampleRule] 4000)
        (sampleEnv ["src/x/a.lua".toList, "src/y/a.lua".toList] "x".toList)
        ["out/r/a.lua.md".toList] "src".toList "out".toList).tasks = [] :=
  ⟨(resultExists_base_only ["out/r/a.lua.md".toList] "src/x/a.lua".toList "src/y/a.lua".toList
      "r".toList "out".toList (by decide)).1, by decide, by decide⟩

end AICodeChecker
